import Mathlib

/-!
Verification of the `generative-ai-application-builder` worker and tooling.

Shallow embedding of the two source files:
  * `source/ecs/ui-agent-worker/worker.py` — the autonomous repository-change
    worker (job intake, workspace management, guardrails, agent tool-call
    loop, verification retries, finalization, PR creation);
  * `tools/openapi/prune_openapi.py` — the offline OpenAPI pruning transform.

Python dictionaries and JSON values are modelled as association lists; git
state is modelled as three path→content maps (HEAD tree, index, worktree);
subprocess and network effects are modelled by explicit parameters carrying
their observable results.  External library calls (`json.loads`,
`str.isalnum`, `re.search`) are modelled at their documented interface.
-/

/-- JSON value, mirroring the dictionaries `json.load`/`json.loads` produce.
Objects are association lists; the Python sources only ever build objects with
distinct keys, and all lookups below take the first match. -/
inductive Json where
  | null
  | bool (b : Bool)
  | num (n : Int)
  | str (s : String)
  | arr (items : List Json)
  | obj (entries : List (String × Json))

/-- Lookup in an association list of JSON object entries (Python `dict.get`). -/
def jlookup (kvs : List (String × Json)) (k : String) : Option Json :=
  (kvs.find? (fun kv => kv.1 == k)).map (fun kv => kv.2)

/-- Entries of a JSON object; any non-object has no entries. -/
def getEntries : Json → List (String × Json)
  | .obj kvs => kvs
  | _ => []

/-- Python `d.get(k)` on a JSON value known to be used as a dict. -/
def jget (j : Json) (k : String) : Option Json :=
  jlookup (getEntries j) k

/-- Python truthiness of a JSON value (used for `x or default` idioms). -/
def jTruthy : Json → Bool
  | .null => false
  | .bool b => b
  | .num n => n != 0
  | .str s => !s.isEmpty
  | .arr xs => !xs.isEmpty
  | .obj kvs => !kvs.isEmpty

/-- Python `value or {}`: `None` and falsy values are replaced by an empty dict. -/
def orEmptyObj (o : Option Json) : Json :=
  match o with
  | none => .obj []
  | some j => if jTruthy j then j else .obj []

/-- Python dict assignment `d[k] = v`: replace the binding if the key exists,
otherwise append it (insertion order preserved, as in CPython dicts). -/
def assocSet : List (String × Json) → String → Json → List (String × Json)
  | [], k, v => [(k, v)]
  | (k', v') :: rest, k, v =>
      if k' == k then (k, v) :: rest else (k', v') :: assocSet rest k v

/-!  ## String primitives

Executable models of the Python string operations the sources use, defined
by structural recursion over character lists (with `String.mk`/`String.toList`
at the boundary) so that every concrete run of the embedding can be computed
inside the logic. -/

/-- Worker for `splitOnChar`. -/
def splitOnCharAux (c : Char) : List Char → List Char → List (List Char)
  | [], acc => [acc.reverse]
  | d :: rest, acc =>
      if d == c then acc.reverse :: splitOnCharAux c rest []
      else splitOnCharAux c rest (d :: acc)

/-- Python `s.split(c)` for a one-character separator (also the behaviour of
`str.split("/")` used by `_parse_repo` and `_parse_component_ref`). -/
def splitOnChar (c : Char) (s : String) : List String :=
  (splitOnCharAux c s.toList []).map String.mk

/-- Python `sep.join(parts)`. -/
def joinWith (sep : String) : List String → String
  | [] => ""
  | [x] => x
  | x :: y :: rest => x ++ sep ++ joinWith sep (y :: rest)

/-- Python `s.startswith(pre)`. -/
def startsWithB (s pre : String) : Bool :=
  pre.toList.isPrefixOf s.toList

/-- ASCII whitespace recognized by Python `str.strip()` (the sources never
strip non-ASCII whitespace). -/
def pyIsSpace (c : Char) : Bool :=
  c == ' ' || c == '\t' || c == '\n' || c == '\r' || c == '\x0c' || c == '\x0b'

/-- Python `s.strip()`. -/
def strTrim (s : String) : String :=
  String.mk (((s.toList.dropWhile pyIsSpace).reverse.dropWhile pyIsSpace).reverse)

/-- Code-point lexicographic strict order on character lists (Python string
`<`). -/
def charsLt : List Char → List Char → Bool
  | [], [] => false
  | [], _ :: _ => true
  | _ :: _, [] => false
  | a :: as, b :: bs => if a == b then charsLt as bs else decide (a < b)

/-- Insertion step of the sorting model. -/
def insertSorted {α : Type} (le : α → α → Bool) (x : α) : List α → List α
  | [] => [x]
  | y :: ys => if le x y then x :: y :: ys else y :: insertSorted le x ys

/-- Model of Python `sorted`: produce the input reordered by `le` (insertion
sort; on the pairwise-distinct sets it is applied to, any correct sort
produces the same list). -/
def sortByB {α : Type} (le : α → α → Bool) : List α → List α
  | [] => []
  | x :: xs => insertSorted le x (sortByB le xs)

/-!  ## worker.py: small pure helpers  -/

/-- Embedding of `_parse_repo`: reject a coordinate with no separator, then
split on the FIRST `/` only (Python `repo.split("/", 1)`), so `a/b/c` yields
owner `a` and name `b/c`. -/
def parse_repo (repo : String) : Except String (String × String) :=
  match splitOnChar '/' repo with
  | [] => .error ("repo must be in owner/name format, got: " ++ repo)
  | [_] => .error ("repo must be in owner/name format, got: " ++ repo)
  | owner :: rest => .ok (owner, joinWith "/" rest)

/-- Model of Python `str.isalnum` for a single character.  Python's test is
Unicode-aware: any Unicode letter or digit is alphanumeric, far beyond
`[a-zA-Z0-9]`.  The model combines the ASCII test with a finite table of
representative non-ASCII Unicode alphanumeric characters (each of which
satisfies `c.isalnum()` in Python). -/
def unicodeAlnumExtras : List Char := ['é', 'ß', 'Ω', 'ü', 'ñ', 'á']

/-- Python `ch.isalnum()` for one character (see `unicodeAlnumExtras`). -/
def pythonIsAlnum (c : Char) : Bool :=
  c.isAlphanum || unicodeAlnumExtras.contains c

/-- Embedding of `_sanitize_session_id`: map every character that is not
alphanumeric (Python semantics) and not `-`/`_` to `-`, strip `-` from both
ends (Python `str.strip("-")`), default to `"session"` when empty, and prepend
`"s-"` when the first character is not alphanumeric. -/
def sanitize_session_id (raw : String) : String :=
  let mapped := raw.toList.map
    (fun ch => if pythonIsAlnum ch || ch == '-' || ch == '_' then ch else '-')
  let stripped := ((mapped.dropWhile (fun c => c == '-')).reverse.dropWhile
    (fun c => c == '-')).reverse
  let s := if stripped.isEmpty then "session".toList else stripped
  let s' := match s with
    | [] => s
    | c :: _ => if pythonIsAlnum c then s else 's' :: '-' :: s
  String.mk s'

/-- ASCII regular-expression check `[a-zA-Z0-9][a-zA-Z0-9-_]*` stated by the
`_sanitize_session_id` docstring (`Char.isAlphanum` is the ASCII test). -/
def matchesSessionIdPattern (s : String) : Bool :=
  match s.toList with
  | [] => false
  | c :: rest => c.isAlphanum && rest.all (fun d => d.isAlphanum || d == '-' || d == '_')

/-!  ## worker.py: git state model

Git state is three maps from repository-relative path to file content:
the committed tree at `HEAD`, the index (staging area), and the worktree.
`.gitignore` handling is not modelled (the guardrail claims concern files
git reports, and ignored files are outside every diff the worker runs). -/

/-- Finite map from path to content, as an association list (first match wins). -/
abbrev Files := List (String × String)

/-- Content of a path, `none` when the path is absent. -/
def Files.get (fs : Files) (p : String) : Option String :=
  (fs.find? (fun kv => kv.1 == p)).map (fun kv => kv.2)

/-- Paths bound in the map. -/
def Files.keys (fs : Files) : List String := fs.map (fun kv => kv.1)

/-- Extensional equality of two trees, as git tree comparison sees it. -/
def filesEquiv (a b : Files) : Bool :=
  (a.keys ++ b.keys).all (fun k => a.get k == b.get k)

/-- State of the clone: committed tree, index, worktree. -/
structure GitState where
  head : Files
  idx : Files
  wt : Files

/-- Output of `git diff --name-only` (no arguments): the paths tracked in the
index whose worktree content differs from the index.  Untracked files are NOT
listed by this command, and neither are changes already staged. -/
def diffNameOnly (idx wt : Files) : List String :=
  idx.keys.filter (fun p => !(wt.get p == idx.get p))

/-- Python `ap.rstrip("/")`. -/
def rstripSlashes (s : String) : String :=
  String.mk ((s.toList.reverse.dropWhile (fun c => c == '/')).reverse)

/-- Membership test of `_enforce_allowed_paths` and `_ensure_path_allowed`:
a path is allowed when it equals an allow-list entry or is nested under one. -/
def pathAllowedB (allowed : List String) (p : String) : Bool :=
  allowed.any (fun ap => p == ap || startsWithB p (rstripSlashes ap ++ "/"))

/-- Embedding of `_enforce_allowed_paths`: run `git diff --name-only`, return
normally when nothing changed, otherwise fail when any changed path falls
outside the allow-list. -/
def enforce_allowed_paths (allowed : List String) (idx wt : Files) :
    Except String Unit :=
  let changed := diffNameOnly idx wt
  if changed.isEmpty then .ok ()
  else
    let bad := changed.filter (fun p => !(pathAllowedB allowed p))
    if bad.isEmpty then .ok ()
    else .error ("Guardrail violation: changed files outside allowed_paths: " ++
      joinWith ", " bad)

/-- Embedding of `_tool_git_commit`: guardrail check, `git add -A` (index
becomes the worktree, including previously untracked files), guardrail check
again, then `git commit` (HEAD becomes the index; the commit subprocess exits
non-zero — reported as `ok: false`, not an exception — when there is nothing
staged).  Returns the new state and whether a commit was created. -/
def tool_git_commit (allowed : List String) (st : GitState) :
    Except String (GitState × Bool) := do
  _ ← enforce_allowed_paths allowed st.idx st.wt
  let idx1 := st.wt
  _ ← enforce_allowed_paths allowed idx1 st.wt
  if filesEquiv idx1 st.head then
    .ok ({ st with idx := idx1 }, false)
  else
    .ok ({ head := idx1, idx := idx1, wt := st.wt }, true)

/-!  ## worker.py: pull-request model -/

/-- Open pull request as the GitHub API reports it (head branch, number, URL). -/
structure PullReq where
  headBranch : String
  number : Nat
  url : String
deriving DecidableEq

/-- Embedding of `_github_find_open_pr_for_branch`: list open PRs filtered by
head branch and return the first, `None` when the list is empty. -/
def github_find_open_pr_for_branch (prs : List PullReq) (branch : String) :
    Option PullReq :=
  prs.find? (fun pr => pr.headBranch == branch)

/-- Result of the create-or-reuse step of finalization. -/
structure EnsurePrResult where
  prs : List PullReq
  pr : PullReq
  created : Bool
deriving DecidableEq

/-- Finalization's PR step in `main`: search for an open PR whose head is the
branch; only when the search returns none, call the creation API (which
appends a new open PR with that head). -/
def ensure_pr (prs : List PullReq) (branch : String) (newNumber : Nat)
    (newUrl : String) : EnsurePrResult :=
  match github_find_open_pr_for_branch prs branch with
  | some pr => { prs := prs, pr := pr, created := false }
  | none =>
      let pr : PullReq := { headBranch := branch, number := newNumber, url := newUrl }
      { prs := prs ++ [pr], pr := pr, created := true }

/-!  ## worker.py: finalization (`main`, after verification) -/

/-- Terminal outcome of finalization; `α` is the test-summary payload type. -/
inductive FinalOutcome (α : Type) where
  | noChanges (tests : α)
  | prDone (prUrl : String) (prNumber : Nat) (tests : α) (committed : Bool)
      (createdPr : Bool)

/-- External observations finalization depends on: the remote tip of the base
branch (for `git diff --quiet origin/base..HEAD`), whether `git push`
succeeds, the open PRs, and the fresh PR's number/URL were one created. -/
structure FinalizeEnv (α : Type) where
  baseTip : Files
  pushOk : Bool
  prs : List PullReq
  newPrNumber : Nat
  newPrUrl : String
  tests : α

/-- Embedding of the tail of `main`: `git status --porcelain` (non-empty
exactly when HEAD, index and worktree do not all agree — staged, unstaged and
untracked entries are all listed), `git diff --quiet origin/base..HEAD`
(exit 1 exactly when the two trees differ), the `no_changes` early return,
otherwise commit-if-dirty (`git add -A`, guardrail check, `git commit`),
`git push`, and the create-or-reuse PR step. -/
def finalize {α : Type} (allowed : List String) (branch : String)
    (st : GitState) (env : FinalizeEnv α) :
    Except String (FinalOutcome α × GitState × List PullReq) := do
  let hasWorktreeChanges := !(filesEquiv st.head st.idx && filesEquiv st.idx st.wt)
  let hasCommitDiffVsBase := !(filesEquiv st.head env.baseTip)
  if !hasWorktreeChanges && !hasCommitDiffVsBase then
    .ok (.noChanges env.tests, st, env.prs)
  else do
    let st1 ← if hasWorktreeChanges then do
        let idx1 := st.wt
        _ ← enforce_allowed_paths allowed idx1 st.wt
        if filesEquiv idx1 st.head then
          .error "git commit failed"
        else
          pure { head := idx1, idx := idx1, wt := st.wt : GitState }
      else
        pure st
    if !env.pushOk then
      .error "git push failed"
    else
      let r := ensure_pr env.prs branch env.newPrNumber env.newPrUrl
      .ok (.prDone r.pr.url r.pr.number env.tests hasWorktreeChanges r.created,
        st1, r.prs)

/-!  ## worker.py: verification retry loop -/

/-- Failure carrier of `UiTestsFailedError`: sub-project, failing step, and
the captured stderr tail. -/
structure UiTestsFailed where
  package : String
  step : String
  stderr : String
deriving DecidableEq

/-- One iteration family of the fix-attempt loop in `main`: `attemptResult k`
is the outcome of verification on attempt `k` (the agent loop preceding it
does not affect the control flow modelled here).  Mirrors
`for fix_attempt in range(1, max_fix_attempts + 1)`: break with the summary on
success, re-raise the CURRENT failure when the final attempt fails
(`if fix_attempt == max_fix_attempts: raise`), otherwise carry the failure
into the next attempt.  The first argument counts the iterations the range
still holds (it is `maxAttempts - k + 1` at every call), so the recursion is
structural.  Returns the summary and the attempt index that succeeded, or
`none` when the range was empty. -/
def fix_attempts_go {α : Type} (attemptResult : Nat → Except UiTestsFailed α)
    (maxAttempts : Nat) : Nat → Nat → Except UiTestsFailed (Option (α × Nat))
  | 0, _ => .ok none
  | remaining + 1, k =>
      match attemptResult k with
      | .ok tests => .ok (some (tests, k))
      | .error e =>
          if k == maxAttempts then .error e
          else fix_attempts_go attemptResult maxAttempts remaining (k + 1)

/-- The fix-attempt loop of `main`: attempts 1 through `maxAttempts`. -/
def run_fix_attempts {α : Type} (attemptResult : Nat → Except UiTestsFailed α)
    (maxAttempts : Nat) : Except UiTestsFailed (Option (α × Nat)) :=
  fix_attempts_go attemptResult maxAttempts maxAttempts 1

/-!  ## worker.py: agent response parsing and tool-call loop -/

/-- Python `t.find(c)` for a single character: index of the first occurrence,
`none` standing for `-1`. -/
def strFindChar (s : String) (c : Char) : Option Nat :=
  s.toList.findIdx? (fun d => d == c)

/-- Python `t.rfind(c)` for a single character: index of the last occurrence,
`none` standing for `-1`. -/
def strRfindChar (s : String) (c : Char) : Option Nat :=
  match s.toList.reverse.findIdx? (fun d => d == c) with
  | none => none
  | some i => some (s.toList.length - 1 - i)

/-- Python slice `t[start:stop]` by character index. -/
def substrChars (s : String) (start stop : Nat) : String :=
  String.mk ((s.toList.drop start).take (stop - start))

/-- Embedding of `_extract_first_json_object`.  `parseJson` models the
external `json.loads` (`none` = a parse exception).  Strip the text, fail on
an empty response, locate the first `{` and the last `}` (fail when absent or
inverted), parse the slice between them, and fail unless the result is an
object.  Every failure is a raised `RuntimeError` in the source, modelled as
`Except.error`. -/
def extract_first_json_object (parseJson : String → Option Json)
    (text : String) : Except String Json :=
  let t := strTrim text
  if t.isEmpty then .error "Empty agent response"
  else
    match strFindChar t '{', strRfindChar t '}' with
    | some start, some stop =>
        if stop ≤ start then .error "Agent response did not contain a JSON object"
        else
          let candidate := substrChars t start (stop + 1)
          match parseJson candidate with
          | none => .error "Failed to parse agent JSON"
          | some (.obj kvs) => .ok (.obj kvs)
          | some _ => .error "Agent JSON must be an object"
    | _, _ => .error "Agent response did not contain a JSON object"

/-- Python `str(x or "")` on a JSON value (container `repr` shapes are not
needed by any claim and collapse to the empty string). -/
def pyStrOrEmpty (o : Option Json) : String :=
  match o with
  | some (.str s) => s
  | some (.num n) => if n == 0 then "" else toString n
  | some (.bool true) => "True"
  | _ => ""

/-- What one iteration of `_agent_tool_loop` does with the raw agent response,
as the source's control flow decides it: an extraction failure is an uncaught
exception aborting the loop; a `final` object ends the loop; an object whose
`type` is neither `final` nor `tool_call` is recorded as an
`invalid_agent_message` history error and the loop continues; a `tool_call`
with a non-string tool or non-dict args is recorded as `invalid_tool_call`;
otherwise the tool is dispatched. -/
inductive StepAction where
  | abort (msg : String)
  | finishFinal (summary : String)
  | recordInvalidMessage
  | recordInvalidToolCall
  | dispatchTool (tool : String) (args : Json)

/-- Classifier for one step of `_agent_tool_loop` (lines delimiting the
response handling: extraction, the `final` check, the `tool_call` check, and
the tool/args shape check). -/
def agent_step_action (parseJson : String → Option Json) (raw : String) :
    StepAction :=
  match extract_first_json_object parseJson raw with
  | .error e => .abort e
  | .ok obj =>
      match jget obj "type" with
      | some (.str t) =>
          if t == "final" then .finishFinal (pyStrOrEmpty (jget obj "summary"))
          else if t == "tool_call" then
            let args := orEmptyObj (jget obj "args")
            match jget obj "tool", args with
            | some (.str tool), .obj _ => .dispatchTool tool args
            | _, _ => .recordInvalidToolCall
          else .recordInvalidMessage
      | _ => .recordInvalidMessage

/-- History entry appended by `_agent_tool_loop` (error entries carry the
`error` field value; tool entries carry tool, args and result). -/
inductive HistEntry where
  | errorEntry (step : Nat) (error : String)
  | toolEntry (step : Nat) (tool : String) (args : Json) (result : Json)

/-- Terminal outcome of `_agent_tool_loop` when no exception escapes. -/
inductive LoopResult where
  | final (summary : String)
  | maxStepsExceeded

/-- Embedding of the `for step in range(1, max_steps + 1)` body of
`_agent_tool_loop` from step `step`.  `responses` models the agent-runtime
reply at each step, `handlers` the tool dispatch (`_tool_list_files` …
`_tool_git_commit`, including the unknown-tool error dict); a handler
exception is caught and converted to an error-dict result, but an extraction
failure propagates and aborts the loop.  The first `Nat` counts the
iterations the range still holds (`maxSteps - step + 1` at every call), so
the recursion is structural. -/
def agent_tool_loop_go (parseJson : String → Option Json)
    (responses : Nat → String) (handlers : String → Json → Except String Json) :
    Nat → Nat → List HistEntry → Except String (LoopResult × List HistEntry)
  | 0, _, history => .ok (.maxStepsExceeded, history)
  | remaining + 1, step, history =>
      match agent_step_action parseJson (responses step) with
      | .abort e => .error e
      | .finishFinal s => .ok (.final s, history)
      | .recordInvalidMessage =>
          agent_tool_loop_go parseJson responses handlers remaining (step + 1)
            (history ++ [.errorEntry step "invalid_agent_message"])
      | .recordInvalidToolCall =>
          agent_tool_loop_go parseJson responses handlers remaining (step + 1)
            (history ++ [.errorEntry step "invalid_tool_call"])
      | .dispatchTool tool args =>
          let result := match handlers tool args with
            | .ok r => r
            | .error e => .obj [("error", .str e)]
          agent_tool_loop_go parseJson responses handlers remaining (step + 1)
            (history ++ [.toolEntry step tool args result])

/-- The agent tool-call loop of the worker: steps 1 through `maxSteps`,
starting with empty history. -/
def agent_tool_loop (parseJson : String → Option Json)
    (responses : Nat → String) (handlers : String → Json → Except String Json)
    (maxSteps : Nat) : Except String (LoopResult × List HistEntry) :=
  agent_tool_loop_go parseJson responses handlers maxSteps 1 []

/-!  ## worker.py: job intake (`main`, before any side effect) -/

/-- Job object after JSON decoding, with each schema field already at its
schema type (`JOB_SCHEMA` property types); `none` means the field is absent.
Type mismatches are rejected by the schema validator and are outside this
typed model. -/
structure RawJob where
  run_id : Option String
  repo : Option String
  issue_number : Option Int
  branch : Option String
  base_branch : Option String
  allowed_paths : Option (List String)
  callback_url : Option String
  agent_runtime_arn : Option String
  feedback : Option String

/-- Job fields as `main` uses them after intake. -/
structure ValidJob where
  runId : String
  repo : String
  issueNumber : Int
  branch : String
  baseBranch : String
  allowedPaths : List String
  callbackUrl : Option String
  agentRuntimeArn : Option String
  feedback : String
deriving DecidableEq

/-- Embedding of the intake prefix of `main` (schema validation and field
normalization, before the start log, the callback, and any git or API call):
the schema requires `run_id`, `repo`, `issue_number`, `branch`; `base_branch`
defaults to `"main"` when absent or falsy; `allowed_paths` is replaced by the
two fixed UI package directories when absent or FALSY — an empty list is
falsy in Python, so it is silently defaulted, not rejected; `callback_url`
and `agent_runtime_arn` are kept only when non-blank; `feedback` is stripped.
No check constrains the shape of `repo` or the sign of `issue_number` here. -/
def job_intake (j : RawJob) : Except String ValidJob :=
  match j.run_id, j.repo, j.issue_number, j.branch with
  | some runId, some repo, some issueNumber, some branch =>
      let baseBranch := match j.base_branch with
        | some b => if b.isEmpty then "main" else b
        | none => "main"
      let allowedPaths := match j.allowed_paths with
        | some l => if l.isEmpty then ["source/ui-deployment", "source/ui-portal"] else l
        | none => ["source/ui-deployment", "source/ui-portal"]
      let callbackUrl := match j.callback_url with
        | some c => if c.trim.isEmpty then none else some c
        | none => none
      let agentRuntimeArn := match j.agent_runtime_arn with
        | some a => if a.trim.isEmpty then none else some a
        | none => none
      let feedback := match j.feedback with
        | some f => f.trim
        | none => ""
      .ok { runId := runId, repo := repo, issueNumber := issueNumber,
            branch := branch, baseBranch := baseBranch,
            allowedPaths := allowedPaths, callbackUrl := callbackUrl,
            agentRuntimeArn := agentRuntimeArn, feedback := feedback }
  | _, _, _, _ => .error "JOB_JSON failed schema validation"

/-!  ## worker.py: workspace lifecycle (`_git_clone_and_checkout` and the
`try/finally` of `main`) -/

/-- Observable results of the subprocesses `_git_clone_and_checkout` runs,
plus the name `tempfile.mkdtemp` picks. -/
structure CloneEnv where
  runId : String
  repoName : String
  tmpName : String
  cloneOk : Bool
  lsRemoteOk : Bool
  branchExistsOnRemote : Bool
  fetchOk : Bool
  checkoutOk : Bool

/-- Result of `_git_clone_and_checkout`: the temporary directory is created
by `mkdtemp` FIRST, unconditionally; the function then either returns the
repo directory inside it or raises on the first failing git subprocess.  On a
raise the created directory's name never reaches the caller. -/
structure CloneResult where
  createdRoot : String
  result : Except String String

/-- Embedding of `_git_clone_and_checkout`. -/
def git_clone_and_checkout (env : CloneEnv) : CloneResult :=
  let workRoot := "/tmp/ui-agent-" ++ env.runId ++ "-" ++ env.tmpName
  let repoDir := workRoot ++ "/" ++ env.repoName
  { createdRoot := workRoot
    result :=
      if !env.cloneOk then .error "git clone failed"
      else if !env.lsRemoteOk then .error "git ls-remote failed"
      else if env.branchExistsOnRemote then
        if !env.fetchOk then .error "git fetch branch failed"
        else if !env.checkoutOk then .error "git checkout existing branch failed"
        else .ok repoDir
      else
        if !env.checkoutOk then .error "git checkout -b failed"
        else .ok repoDir }

/-- Python `os.path.dirname` for `/`-separated paths without a trailing
separator. -/
def dirname (p : String) : String :=
  joinWith "/" (splitOnChar '/' p).dropLast

/-- Observable trace of `main`'s workspace handling: which directory
`mkdtemp` created (if reached), which directory the `finally` block removed
(`none` when `shutil.rmtree` was not called), and the job outcome. -/
structure MainCleanupTrace where
  tempDirCreated : Option String
  removedDir : Option String
  outcome : Except String Nat

/-- Embedding of the `try/except/finally` skeleton of `main` around the
workspace: `work_root` starts as `None`; the issue fetch precedes any
`mkdtemp`; `work_root` is assigned `os.path.dirname(repo_dir)` only AFTER
`_git_clone_and_checkout` returns; the `finally` block removes `work_root`
only when it is non-`None`.  `restOk` abstracts every stage after workspace
setup (agent loop, guardrails, verification, finalization): whether those
stages raise or not, the `finally` runs with `work_root` set. -/
def main_workspace_lifecycle (issueFetchOk : Bool) (env : CloneEnv)
    (restOk : Bool) : MainCleanupTrace :=
  if !issueFetchOk then
    { tempDirCreated := none, removedDir := none,
      outcome := .error "github issue fetch failed" }
  else
    let c := git_clone_and_checkout env
    match c.result with
    | .error e =>
        { tempDirCreated := some c.createdRoot, removedDir := none,
          outcome := .error e }
    | .ok repoDir =>
        { tempDirCreated := some c.createdRoot,
          removedDir := some (dirname repoDir),
          outcome := if restOk then .ok 0 else .error "job failed after workspace setup" }

/-!  ## prune_openapi.py: OpenAPI pruning transform

Regular expressions (`re.compile` / `pattern.search`) are modelled at their
interface as arbitrary `String → Bool` predicates; `STRIP_KEYS` and the
vendor-extension rule are embedded verbatim. -/

/-- Python `value or default` on an optional JSON value. -/
def orDefault (o : Option Json) (d : Json) : Json :=
  match o with
  | none => d
  | some j => if jTruthy j then j else d

/-- Contents of `STRIP_KEYS`. -/
def stripKeysList : List String :=
  ["description", "summary", "externalDocs", "examples", "example",
   "x-codeSamples", "x-codegen-request-body-name", "x-github",
   "x-github-enterprise", "x-githubCloudOnly", "x-githubEnterpriseOnly",
   "x-githubInternal", "x-github-internal", "x-github-beta",
   "x-github-preview", "x-githubApiVersion", "x-githubApiVersionIntroduced",
   "x-githubApiVersionDeprecated", "x-githubApiVersionRemoved",
   "x-github-deprecation-date", "x-github-package", "x-github-redirect-url",
   "x-github-metadata", "x-logo", "x-tagGroups"]

/-- Key filter of `_strip_big_fields`: a key survives when it is not in
`STRIP_KEYS` and is not a vendor extension (`x-` keys are dropped, except
`x-amazon-apigateway-integration`). -/
def keptKey (k : String) : Bool :=
  !(stripKeysList.contains k) &&
    (!(startsWithB k "x-") || k == "x-amazon-apigateway-integration")

mutual
/-- Embedding of `_strip_big_fields`: rebuild dicts keeping only surviving
keys, recurse into dict values and list items, leave leaves unchanged. -/
def stripJ : Json → Json
  | .obj kvs => .obj (stripKvs kvs)
  | .arr xs => .arr (stripArr xs)
  | .null => .null
  | .bool b => .bool b
  | .num n => .num n
  | .str s => .str s

/-- List part of `_strip_big_fields`. -/
def stripArr : List Json → List Json
  | [] => []
  | x :: xs => stripJ x :: stripArr xs

/-- Dict part of `_strip_big_fields`. -/
def stripKvs : List (String × Json) → List (String × Json)
  | [] => []
  | (k, v) :: rest =>
      if keptKey k then (k, stripJ v) :: stripKvs rest else stripKvs rest
end

mutual
/-- Embedding of `_iter_refs`: on a dict, yield the value of a string-valued
`$ref` key, then recurse into every value; on a list, recurse into every
item. -/
def iterRefs : Json → List String
  | .obj kvs =>
      (match jlookup kvs "$ref" with
       | some (.str r) => [r]
       | _ => []) ++ iterRefsKvs kvs
  | .arr xs => iterRefsArr xs
  | .null => []
  | .bool _ => []
  | .num _ => []
  | .str _ => []

/-- List part of `_iter_refs`. -/
def iterRefsArr : List Json → List String
  | [] => []
  | x :: xs => iterRefs x ++ iterRefsArr xs

/-- Dict-values part of `_iter_refs`. -/
def iterRefsKvs : List (String × Json) → List String
  | [] => []
  | (_, v) :: rest => iterRefs v ++ iterRefsKvs rest
end

/-- Refs of an optional JSON value (`_iter_refs(None)` yields nothing). -/
def iterRefsOpt (o : Option Json) : List String :=
  match o with
  | some j => iterRefs j
  | none => []

mutual
/-- Invariant established by `_strip_big_fields`: no object anywhere in the
value binds a key the stripper removes. -/
def noBadKeys : Json → Bool
  | .obj kvs => noBadKeysKvs kvs
  | .arr xs => noBadKeysArr xs
  | .null => true
  | .bool _ => true
  | .num _ => true
  | .str _ => true

/-- List part of `noBadKeys`. -/
def noBadKeysArr : List Json → Bool
  | [] => true
  | x :: xs => noBadKeys x && noBadKeysArr xs

/-- Dict part of `noBadKeys`. -/
def noBadKeysKvs : List (String × Json) → Bool
  | [] => true
  | (k, v) :: rest => keptKey k && noBadKeys v && noBadKeysKvs rest
end

/-- Embedding of `_parse_component_ref`: accept only `#/components/…` refs
with at least four `/`-separated parts; the component name is everything from
the fourth part on, rejoined with `/`. -/
def parseComponentRef (ref : String) : Option (String × String) :=
  if startsWithB ref "#/components/" then
    match splitOnChar '/' ref with
    | _ :: _ :: t :: n :: rest => some (t, joinWith "/" (n :: rest))
    | _ => none
  else none

/-- Embedding of `_match_path`: literal-prefix match or any regex match. -/
def matchPathB (p : String) (pres : List String) (rxs : List (String → Bool)) :
    Bool :=
  pres.any (fun pre => startsWithB p pre) || rxs.any (fun r => r p)

/-- Component lookup of the walk loop: `comps.get(comp_type) or {}` then
`.get(comp_name)`. -/
def comp_lookup (comps : Json) (tn : String × String) : Option Json :=
  jget (orEmptyObj (jget comps tn.1)) tn.2

/-- Embedding of the `add_ref` closure of `prune_openapi`: ignore refs
outside `#/components/`, and push a parsed pair to both the needed set and
the queue only when it is new. -/
def addRef (st : List (String × String) × List (String × String))
    (ref : String) : List (String × String) × List (String × String) :=
  match parseComponentRef ref with
  | none => st
  | some tn => if tn ∈ st.1 then st else (st.1 ++ [tn], st.2 ++ [tn])

/-- Embedding of the `while queue:` walk of `prune_openapi`: pop from the end
(Python `list.pop()`), skip pairs with no component object, otherwise feed
the object's refs through `add_ref`.  The loop terminates in the source
because every push is a pair not yet in `needed` and parsed from a ref string
occurring in the document; the fuel passed by `prune_openapi` — one plus the
total count of ref occurrences in the kept paths and in the components —
therefore bounds the iteration count. -/
def walk_components (comps : Json) :
    Nat → List (String × String) → List (String × String) →
    List (String × String)
  | 0, needed, _ => needed
  | fuel + 1, needed, queue =>
      match queue.getLast? with
      | none => needed
      | some tn =>
          let rest := queue.dropLast
          match comp_lookup comps tn with
          | none => walk_components comps fuel needed rest
          | some obj =>
              let st := (iterRefs obj).foldl addRef (needed, rest)
              walk_components comps fuel st.1 st.2

/-- Order used by Python `sorted` on a set of string pairs (lexicographic
tuple comparison, strings compared by code point). -/
def tnLe (a b : String × String) : Bool :=
  charsLt a.1.toList b.1.toList ||
    (a.1 == b.1 && (charsLt a.2.toList b.2.toList || a.2 == b.2))

/-- Embedding of `new_components.setdefault(comp_type, {})[comp_name] = v`. -/
def insertComp (m : List (String × Json)) (t n : String) (v : Json) :
    List (String × Json) :=
  match jlookup m t with
  | some bucket => assocSet m t (.obj (assocSet (getEntries bucket) n v))
  | none => assocSet m t (.obj [(n, v)])

/-- Embedding of the `Rebuild components` loop of `prune_openapi`: iterate
the needed pairs in sorted order and copy each member that is present in the
(stripped) components. -/
def build_new_components (comps : Json) (needed : List (String × String)) :
    List (String × Json) :=
  (sortByB tnLe needed).foldl
    (fun m tn =>
      let bucket := orEmptyObj (jget comps tn.1)
      match jget bucket tn.2 with
      | some v => insertComp m tn.1 tn.2 v
      | none => m)
    []

/-- Local `kept_paths` of `prune_openapi`: the entries of `spec.get("paths")
or {}` whose path matches the inclusion rules. -/
def prune_kept_paths (spec : Json) (pres : List String)
    (rxs : List (String → Bool)) : List (String × Json) :=
  (getEntries (orEmptyObj (jget spec "paths"))).filter
    (fun kv => matchPathB kv.1 pres rxs)

/-- Local `out` of `prune_openapi` after `out = _strip_big_fields(out)`: the
minimal skeleton (`openapi` with a `"3.0.0"` default, `info` and `servers`
with falsy-value defaults, the kept paths, the full input components), with
big fields stripped. -/
def prune_out1 (spec : Json) (pres : List String)
    (rxs : List (String → Bool)) : Json :=
  stripJ (.obj
    [("openapi", (jget spec "openapi").getD (.str "3.0.0")),
     ("info", orDefault (jget spec "info")
        (.obj [("title", .str "Pruned API"), ("version", .str "0.0.0")])),
     ("servers", orDefault (jget spec "servers") (.arr [])),
     ("paths", .obj (prune_kept_paths spec pres rxs)),
     ("components", orEmptyObj (jget spec "components"))])

/-- Refs collected from `out.get("paths")` by `prune_openapi`. -/
def prune_paths_refs (spec : Json) (pres : List String)
    (rxs : List (String → Bool)) : List String :=
  iterRefsOpt (jget (prune_out1 spec pres rxs) "paths")

/-- Local `comps` of `prune_openapi`: `out.get("components") or {}`. -/
def prune_comps (spec : Json) (pres : List String)
    (rxs : List (String → Bool)) : Json :=
  orEmptyObj (jget (prune_out1 spec pres rxs) "components")

/-- Local `needed` of `prune_openapi` after the walk: the initial queue is
fed by `add_ref` over the kept paths' refs, and the `while queue:` loop then
walks the components transitively (see `walk_components` for the fuel). -/
def prune_needed (spec : Json) (pres : List String)
    (rxs : List (String → Bool)) : List (String × String) :=
  let pathsRefs := prune_paths_refs spec pres rxs
  let init := pathsRefs.foldl addRef ([], [])
  let comps := prune_comps spec pres rxs
  walk_components comps
    (pathsRefs.length + (iterRefs comps).length + 1) init.1 init.2

/-- Embedding of `prune_openapi` (the `deepcopy` at the top copies the input
value; in this value model the copy is the input value itself): keep matching
paths, build the skeleton, strip big fields, collect refs from the kept
paths, walk the components transitively, rebuild the referenced components,
strip them again, and store them under `components`. -/
def prune_openapi (spec : Json) (pres : List String)
    (rxs : List (String → Bool)) : Json :=
  .obj (assocSet (getEntries (prune_out1 spec pres rxs)) "components"
    (stripJ (.obj (build_new_components (prune_comps spec pres rxs)
      (prune_needed spec pres rxs)))))

/-- Component members of a components section: the pairs (type, name) bound
in its buckets. -/
def compMembers (c : Json) : List (String × String) :=
  (getEntries c).flatMap
    (fun tv => (getEntries tv.2).map (fun nv => (tv.1, nv.1)))

/-- Transitive `$ref` reachability over the INPUT document: a pair is
reachable when a ref occurring in the kept (matching) input paths mentions
it, or when a ref occurring in the input components object of an
already-reachable pair mentions it. -/
inductive Reach (spec : Json) (pres : List String)
    (rxs : List (String → Bool)) : String × String → Prop where
  | base (ref : String) (tn : String × String) :
      ref ∈ iterRefs (Json.obj (prune_kept_paths spec pres rxs)) →
      parseComponentRef ref = some tn → Reach spec pres rxs tn
  | step (tn tn' : String × String) (obj : Json) (ref : String) :
      Reach spec pres rxs tn →
      comp_lookup (orEmptyObj (jget spec "components")) tn = some obj →
      ref ∈ iterRefs obj →
      parseComponentRef ref = some tn' → Reach spec pres rxs tn'


/-!  ## prune_openapi.py: heap model for the mutation claim

Python dicts and lists are heap objects with identity.  To state that
`prune_openapi` never mutates its argument, the object graph is made
explicit: a heap maps addresses to nodes whose children are addresses.
`prune_openapi`'s body is rendered at mutation granularity: `deepcopy`
materializes a fresh graph; the dict/list-building subroutines
(`kept_paths`, the skeleton, `_strip_big_fields`, the walk bookkeeping,
`new_components`) only construct fresh objects, rendered as allocations of
the value they compute (their values are the pure pipeline above);
`out["components"] = ...` — the one assignment into an already-built dict —
is a genuine store. -/

/-- Heap address. -/
abbrev Addr := Nat

/-- Heap node: a Python object; containers hold child addresses. -/
inductive HNode where
  | hnull
  | hbool (b : Bool)
  | hnum (n : Int)
  | hstr (s : String)
  | harr (items : List Addr)
  | hobj (entries : List (String × Addr))
deriving DecidableEq

/-- Child addresses of a node. -/
def HNode.childAddrs : HNode → List Addr
  | .harr xs => xs
  | .hobj es => es.map (fun kv => kv.2)
  | _ => []

/-- Python truthiness of a node. -/
def HNode.truthy : HNode → Bool
  | .hnull => false
  | .hbool b => b
  | .hnum n => n != 0
  | .hstr s => !s.isEmpty
  | .harr xs => !xs.isEmpty
  | .hobj es => !es.isEmpty

/-- Dict assignment at node level (`d[k] = address`). -/
def hobjSet (node : HNode) (k : String) (a : Addr) : HNode :=
  match node with
  | .hobj es => .hobj (hobjSetEntries es k a)
  | n => n
where
  hobjSetEntries : List (String × Addr) → String → Addr → List (String × Addr)
    | [], k, a => [(k, a)]
    | (k0, a0) :: rest, k, a =>
        if k0 == k then (k, a) :: rest else (k0, a0) :: hobjSetEntries rest k a

/-- Heap: bump allocator plus an association list of cells (first match
wins; a store prepends, shadowing the old binding). -/
structure Heap where
  next : Addr
  cells : List (Addr × HNode)
deriving DecidableEq

/-- Read a cell. -/
def Heap.read (h : Heap) (a : Addr) : Option HNode :=
  (h.cells.find? (fun cv => cv.1 == a)).map (fun cv => cv.2)

/-- Allocate a fresh cell. -/
def Heap.alloc (h : Heap) (v : HNode) : Addr × Heap :=
  (h.next, { next := h.next + 1, cells := (h.next, v) :: h.cells })

/-- Overwrite a cell in place. -/
def Heap.store (h : Heap) (a : Addr) (v : HNode) : Heap :=
  { next := h.next, cells := (a, v) :: h.cells }

/-- Closed heap: every cell sits below the allocation frontier and points
only below it. -/
def Heap.Closed (h : Heap) : Prop :=
  ∀ av ∈ h.cells, av.1 < h.next ∧ ∀ b ∈ (av.2).childAddrs, b < h.next

mutual
/-- Materialize a JSON value as a fresh object graph (children first); the
effect model of Python construction and of `copy.deepcopy`. -/
def allocTree (h : Heap) : Json → Addr × Heap
  | .null => h.alloc .hnull
  | .bool b => h.alloc (.hbool b)
  | .num n => h.alloc (.hnum n)
  | .str s => h.alloc (.hstr s)
  | .arr xs =>
      let r := allocTreeArr h xs
      r.2.alloc (.harr r.1)
  | .obj kvs =>
      let r := allocTreeKvs h kvs
      r.2.alloc (.hobj r.1)

/-- List part of `allocTree`. -/
def allocTreeArr (h : Heap) : List Json → List Addr × Heap
  | [] => ([], h)
  | x :: xs =>
      let r := allocTree h x
      let rest := allocTreeArr r.2 xs
      (r.1 :: rest.1, rest.2)

/-- Dict part of `allocTree`. -/
def allocTreeKvs (h : Heap) : List (String × Json) →
    List (String × Addr) × Heap
  | [] => ([], h)
  | kv :: rest =>
      let r := allocTree h kv.2
      let es := allocTreeKvs r.2 rest
      ((kv.1, r.1) :: es.1, es.2)
end

/-- Read back the JSON value rooted at an address (`fuel` bounds the depth;
the graphs built here are acyclic, so some finite fuel always suffices). -/
def readTree (h : Heap) : Nat → Addr → Option Json
  | 0, _ => none
  | fuel + 1, a =>
      match h.read a with
      | none => none
      | some .hnull => some .null
      | some (.hbool b) => some (.bool b)
      | some (.hnum n) => some (.num n)
      | some (.hstr s) => some (.str s)
      | some (.harr items) =>
          (items.mapM (fun b => readTree h fuel b)).map Json.arr
      | some (.hobj es) =>
          (es.mapM (fun kv => (readTree h fuel kv.2).map
            (fun j => (kv.1, j)))).map Json.obj

/-- Entries of a dict node at an address. -/
def heapObjEntries (h : Heap) (a : Addr) : List (String × Addr) :=
  match h.read a with
  | some (.hobj es) => es
  | _ => []

/-- Address of `d[k]` for a dict at an address. -/
def heapObjGet (h : Heap) (a : Addr) (k : String) : Option Addr :=
  ((heapObjEntries h a).find? (fun kv => kv.1 == k)).map (fun kv => kv.2)

/-- Python `spec.get(k, default)` at heap level: the existing child address
(shared), or a freshly constructed default. -/
def heapGetOrAlloc (h : Heap) (a : Addr) (k : String) (dflt : Json) :
    Addr × Heap :=
  match heapObjGet h a k with
  | some c => (c, h)
  | none => allocTree h dflt

/-- Python `spec.get(k) or default` at heap level: the existing child when
truthy, else a freshly constructed default. -/
def heapGetOrAllocTruthy (h : Heap) (a : Addr) (k : String) (dflt : Json) :
    Addr × Heap :=
  match heapObjGet h a k with
  | some c =>
      match h.read c with
      | some node => if node.truthy then (c, h) else allocTree h dflt
      | none => allocTree h dflt
  | none => allocTree h dflt

/-- Entries of `spec.get("paths") or {}` at heap level. -/
def heapPathsEntries (h : Heap) (a : Addr) : List (String × Addr) :=
  match heapObjGet h a "paths" with
  | some pa => heapObjEntries h pa
  | none => []

/-- Heap-level rendition of `prune_openapi` (see the section comment for the
granularity): deepcopy the input, build `kept_paths` sharing the copy's item
addresses, build the `out` skeleton referencing the copy's children or fresh
defaults, rebuild `out` stripped, allocate the rebuilt components, and store
them into `out` under `components`.  Returns the result root and final
heap. -/
def pruneH (pres : List String) (rxs : List (String → Bool)) (fuel : Nat)
    (h0 : Heap) (a0 : Addr) : Option (Addr × Heap) :=
  match readTree h0 fuel a0 with
  | none => none
  | some specJ =>
    let c1 := allocTree h0 specJ
    let keptEntries := (heapPathsEntries c1.2 c1.1).filter
      (fun kv => matchPathB kv.1 pres rxs)
    let c2 := c1.2.alloc (.hobj keptEntries)
    let c3 := heapGetOrAlloc c2.2 c1.1 "openapi" (.str "3.0.0")
    let c4 := heapGetOrAllocTruthy c3.2 c1.1 "info"
      (.obj [("title", .str "Pruned API"), ("version", .str "0.0.0")])
    let c5 := heapGetOrAllocTruthy c4.2 c1.1 "servers" (.arr [])
    let c6 := heapGetOrAllocTruthy c5.2 c1.1 "components" (.obj [])
    let c7 := c6.2.alloc (.hobj [("openapi", c3.1), ("info", c4.1),
      ("servers", c5.1), ("paths", c2.1), ("components", c6.1)])
    match readTree c7.2 fuel c7.1 with
    | none => none
    | some outJ =>
      let c8 := allocTree c7.2 (stripJ outJ)
      let out1J := stripJ outJ
      let pathsRefs := iterRefsOpt (jget out1J "paths")
      let init := pathsRefs.foldl addRef ([], [])
      let comps := orEmptyObj (jget out1J "components")
      let needed := walk_components comps
        (pathsRefs.length + (iterRefs comps).length + 1) init.1 init.2
      let c9 := allocTree c8.2
        (stripJ (.obj (build_new_components comps needed)))
      match c9.2.read c8.1 with
      | none => none
      | some out1Node =>
          some (c8.1, c9.2.store c8.1 (hobjSet out1Node "components" c9.1))

/-- Heap evolution that leaves every pre-existing cell intact. -/
def PreservesFrom (h0 h1 : Heap) : Prop :=
  h0.next ≤ h1.next ∧ ∀ a, a < h0.next → h1.read a = h0.read a

/-!  ## Helper lemmas -/

/-- Changed-path membership: a path tracked in the index whose worktree
content differs appears in `git diff --name-only`. -/
theorem mem_diffNameOnly_of (idx wt : Files) (p : String)
    (htracked : idx.get p ≠ none) (hch : wt.get p ≠ idx.get p) :
    p ∈ diffNameOnly idx wt := by
  unfold diffNameOnly
  refine List.mem_filter.mpr ⟨?_, ?_⟩
  · unfold Files.get at htracked
    cases hf : idx.find? (fun kv => kv.1 == p) with
    | none => simp [hf] at htracked
    | some kv =>
        have hmem := List.mem_of_find?_eq_some hf
        have hkey : kv.1 = p := by simpa using List.find?_some hf
        exact hkey ▸ List.mem_map.mpr ⟨kv, hmem, rfl⟩
  · simp only [Bool.not_eq_eq_eq_not, Bool.not_true, beq_eq_false_iff_ne, ne_eq]
    exact hch

/-- Guardrail failure: when the diff contains a path outside the allow-list,
`_enforce_allowed_paths` raises. -/
theorem enforce_error_of_bad (allowed : List String) (idx wt : Files)
    (p : String) (hmem : p ∈ diffNameOnly idx wt)
    (hbad : pathAllowedB allowed p = false) :
    ∃ m, enforce_allowed_paths allowed idx wt = .error m := by
  unfold enforce_allowed_paths
  have hne : (diffNameOnly idx wt).isEmpty = false := by
    cases h : diffNameOnly idx wt with
    | nil => rw [h] at hmem; cases hmem
    | cons a l => simp
  have hbadmem : p ∈ (diffNameOnly idx wt).filter
      (fun q => !(pathAllowedB allowed q)) :=
    List.mem_filter.mpr ⟨hmem, by simp [hbad]⟩
  have hbne : ((diffNameOnly idx wt).filter
      (fun q => !(pathAllowedB allowed q))).isEmpty = false := by
    cases h : (diffNameOnly idx wt).filter (fun q => !(pathAllowedB allowed q)) with
    | nil => rw [h] at hbadmem; cases hbadmem
    | cons a l => simp
  simp only [hne, Bool.false_eq_true, if_false, hbne]
  exact ⟨_, rfl⟩

/-- Success bound of the fix-attempt loop: a successful break happens at an
attempt index within the iteration window. -/
theorem fix_go_bounds {α : Type} (res : Nat → Except UiTestsFailed α)
    (maxA : Nat) : ∀ remaining k tests k',
    fix_attempts_go res maxA remaining k = .ok (some (tests, k')) →
    k ≤ k' ∧ k' < k + remaining := by
  intro remaining
  induction remaining with
  | zero =>
      intro k tests k' h
      simp [fix_attempts_go] at h
  | succ n ih =>
      intro k tests k' h
      rw [fix_attempts_go] at h
      cases hres : res k with
      | ok ts =>
          rw [hres] at h
          simp only [Except.ok.injEq, Option.some.injEq, Prod.mk.injEq] at h
          omega
      | error e =>
          rw [hres] at h
          by_cases hk : k == maxA
          · simp [hk] at h
          · simp only [hk, Bool.false_eq_true, if_false] at h
            have := ih (k + 1) tests k' h
            omega

/-- Exhaustion behaviour of the fix-attempt loop: when every remaining
attempt fails, the loop re-raises exactly the final attempt's failure. -/
theorem fix_go_exhaust {α : Type} (res : Nat → Except UiTestsFailed α)
    (maxA : Nat) (e : UiTestsFailed) : ∀ remaining k,
    k + remaining = maxA + 1 → 1 ≤ remaining →
    (∀ i, k ≤ i → i < maxA → ∃ f, res i = .error f) →
    res maxA = .error e →
    fix_attempts_go res maxA remaining k = .error e := by
  intro remaining
  induction remaining with
  | zero => intro k _ h1; omega
  | succ n ih =>
      intro k hsum _ hall hlast
      rw [fix_attempts_go]
      by_cases hk : k = maxA
      · subst hk
        rw [hlast]
        simp
      · obtain ⟨f, hf⟩ := hall k le_rfl (by omega)
        rw [hf]
        have hkb : (k == maxA) = false := by simp [hk]
        simp only [hkb, Bool.false_eq_true, if_false]
        exact ih (k + 1) (by omega) (by omega)
          (fun i hi hlt => hall i (by omega) hlt) hlast

/-!  ## Claims -/

/-- C8 (code_bug evidence): `_sanitize_session_id` does NOT always return a
string matching `[a-zA-Z0-9][a-zA-Z0-9-_]*`, contrary to its docstring and
the claim: Python's `str.isalnum` is Unicode-aware, so the non-ASCII letter
`é` passes through unchanged and the output `"é"` fails the ASCII pattern.
On ASCII input the advertised behaviour holds, as the spec's own example
shows: `"my/repo#42!!"` maps to `"my-repo-42"`, which matches the pattern. -/
theorem claim_C8_unicode_input :
    sanitize_session_id "é" = "é" ∧
    matchesSessionIdPattern "é" = false ∧
    sanitize_session_id "my/repo#42!!" = "my-repo-42" ∧
    matchesSessionIdPattern "my-repo-42" = true := by
  refine ⟨by decide, by decide, by decide, by decide⟩

/-- C3 (code_bug evidence): when `git clone` fails, the temporary directory
`mkdtemp` created inside `_git_clone_and_checkout` is never removed — the
exception leaves `main`'s `work_root` as `None`, so the `finally` block skips
`shutil.rmtree` — contradicting the claim that the workspace directory is
removed on every exit path once created.  On the paths where
`_git_clone_and_checkout` returns (later success or later failure alike) the
`finally` block does remove exactly the created directory. -/
theorem claim_C3_cleanup_leak :
    (main_workspace_lifecycle true
      { runId := "r1", repoName := "widgets", tmpName := "x7",
        cloneOk := false, lsRemoteOk := true, branchExistsOnRemote := false,
        fetchOk := true, checkoutOk := true } true).tempDirCreated =
      some "/tmp/ui-agent-r1-x7" ∧
    (main_workspace_lifecycle true
      { runId := "r1", repoName := "widgets", tmpName := "x7",
        cloneOk := false, lsRemoteOk := true, branchExistsOnRemote := false,
        fetchOk := true, checkoutOk := true } true).removedDir = none ∧
    (main_workspace_lifecycle true
      { runId := "r1", repoName := "widgets", tmpName := "x7",
        cloneOk := true, lsRemoteOk := true, branchExistsOnRemote := false,
        fetchOk := true, checkoutOk := true } true).removedDir =
      some "/tmp/ui-agent-r1-x7" ∧
    (main_workspace_lifecycle true
      { runId := "r1", repoName := "widgets", tmpName := "x7",
        cloneOk := true, lsRemoteOk := true, branchExistsOnRemote := false,
        fetchOk := true, checkoutOk := true } false).removedDir =
      some "/tmp/ui-agent-r1-x7" := by
  refine ⟨by decide, by decide, by decide, by decide⟩

/-- C4 (counterexample): a job whose repository coordinate has TWO
separators (`a/b/c`), whose issue number is NEGATIVE, and whose allow-list is
present but EMPTY is accepted by intake — the empty allow-list is silently
replaced by the defaults — and even `_parse_repo` accepts `a/b/c` (splitting
on the first separator only), so none of the three rejections the claim
describes happens. -/
theorem claim_C4_counterexample :
    job_intake { run_id := some "r1", repo := some "a/b/c",
                 issue_number := some (-1), branch := some "agent/issue-1",
                 base_branch := none, allowed_paths := some [],
                 callback_url := none, agent_runtime_arn := none,
                 feedback := none } =
      .ok { runId := "r1", repo := "a/b/c", issueNumber := -1,
            branch := "agent/issue-1", baseBranch := "main",
            allowedPaths := ["source/ui-deployment", "source/ui-portal"],
            callbackUrl := none, agentRuntimeArn := none, feedback := "" } ∧
    parse_repo "a/b/c" = .ok ("a", "b/c") := by
  exact ⟨rfl, rfl⟩

/-- C4 (amended): intake accepts a job exactly when the four schema-required
fields (`run_id`, `repo`, `issue_number`, `branch`) are present; it performs
no check on the shape of the repository coordinate (deferred to
`_parse_repo` at first use, which only requires SOME separator) and none on
the sign of the issue number; a present-but-empty allow-list is not rejected
but silently replaced by the two default UI package directories, so the
allow-list of every accepted job is nevertheless non-empty. -/
theorem claim_C4_amended (j : RawJob) :
    ((job_intake j).isOk =
      (j.run_id.isSome && j.repo.isSome && j.issue_number.isSome &&
        j.branch.isSome)) ∧
    (∀ v, job_intake j = .ok v → v.allowedPaths ≠ []) := by
  obtain ⟨r, rp, num, br, bb, ap, cb, arn, fb⟩ := j
  constructor
  · cases r <;> cases rp <;> cases num <;> cases br <;> rfl
  · intro v h
    cases r <;> cases rp <;> cases num <;> cases br <;>
      simp only [job_intake, reduceCtorEq] at h
    rw [Except.ok.injEq] at h
    subst h
    cases ap with
    | none => simp
    | some l =>
        cases l with
        | nil => simp
        | cons a as => simp

/-- C4 (witness): the amended intake theorem applied to a concrete job. -/
theorem claim_C4_witness :
    (ValidJob.allowedPaths { runId := "r2", repo := "acme/widgets",
                             issueNumber := 42, branch := "agent/issue-42",
                             baseBranch := "main",
                             allowedPaths := ["app/ui"], callbackUrl := none,
                             agentRuntimeArn := none, feedback := "" }) ≠ [] :=
  (claim_C4_amended { run_id := some "r2", repo := some "acme/widgets",
                      issue_number := some 42, branch := some "agent/issue-42",
                      base_branch := some "main",
                      allowed_paths := some ["app/ui"], callback_url := none,
                      agent_runtime_arn := none, feedback := none }).2 _ rfl

/-- C5 (confirmed): the fix-attempt loop runs at most the configured maximum
number of attempts — a successful break happens at an attempt index between
1 and the maximum — and when every attempt up to the last fails,
the loop escalates exactly the LAST attempt's failure (package, step and
stderr of the final `UiTestsFailedError`), not an earlier one. -/
theorem claim_C5_attempt_loop {α : Type} (maxA : Nat)
    (res : Nat → Except UiTestsFailed α) (e : UiTestsFailed) :
    (∀ tests k, run_fix_attempts res maxA = .ok (some (tests, k)) →
      1 ≤ k ∧ k ≤ maxA) ∧
    (1 ≤ maxA →
      (∀ i, 1 ≤ i → i < maxA → ∃ f, res i = .error f) →
      res maxA = .error e →
      run_fix_attempts res maxA = .error e) := by
  constructor
  · intro tests k h
    have hb := fix_go_bounds res maxA maxA 1 tests k h
    omega
  · intro h1 hall hlast
    exact fix_go_exhaust res maxA e maxA 1 (by omega) h1 hall hlast

/-- C5 (witness): a run whose three attempts all fail escalates the final
failure. -/
theorem claim_C5_witness :
    run_fix_attempts
      (fun k => (.error { package := "source/ui-portal", step := "npm_test",
                          stderr := toString k } : Except UiTestsFailed Nat)) 3 =
      .error { package := "source/ui-portal", step := "npm_test",
               stderr := "3" } :=
  (claim_C5_attempt_loop 3 _ _).2 (by omega) (fun i _ _ => ⟨_, rfl⟩) rfl

/-- C7 (confirmed): pull-request creation is idempotent per branch —
finalization's PR step creates a PR exactly when the open-PR search for the
branch returns none, reuses (and reports) the existing PR otherwise leaving
the PR list unchanged, and running the step again after any first run
creates nothing and changes nothing. -/
theorem claim_C7_pr_idempotent (prs : List PullReq) (branch : String)
    (n1 n2 : Nat) (u1 u2 : String) :
    ((ensure_pr prs branch n1 u1).created =
      (github_find_open_pr_for_branch prs branch).isNone) ∧
    (∀ pr, github_find_open_pr_for_branch prs branch = some pr →
      ensure_pr prs branch n1 u1 = { prs := prs, pr := pr, created := false }) ∧
    ((ensure_pr (ensure_pr prs branch n1 u1).prs branch n2 u2).created = false ∧
      (ensure_pr (ensure_pr prs branch n1 u1).prs branch n2 u2).prs =
        (ensure_pr prs branch n1 u1).prs) := by
  cases hfind : github_find_open_pr_for_branch prs branch with
  | some pr =>
      refine ⟨by simp [ensure_pr, hfind], ?_, ?_, ?_⟩
      · intro pr' h
        cases h
        simp [ensure_pr, hfind]
      · simp [ensure_pr, hfind]
      · simp [ensure_pr, hfind]
  | none =>
      have hnew : github_find_open_pr_for_branch
          (prs ++ [{ headBranch := branch, number := n1, url := u1 }]) branch =
          some { headBranch := branch, number := n1, url := u1 } := by
        unfold github_find_open_pr_for_branch at hfind ⊢
        rw [List.find?_append, hfind]
        simp
      refine ⟨by simp [ensure_pr, hfind], ?_, ?_, ?_⟩
      · intro pr' h
        exact Option.noConfusion h
      · simp [ensure_pr, hfind, hnew]
      · simp [ensure_pr, hfind, hnew]

/-- C7 (witness): with an open PR already present for the branch, the PR
step reuses it. -/
theorem claim_C7_witness :
    ensure_pr [{ headBranch := "agent/issue-42", number := 7,
                 url := "https://example.test/pr/7" }] "agent/issue-42" 99 "u" =
      { prs := [{ headBranch := "agent/issue-42", number := 7,
                  url := "https://example.test/pr/7" }],
        pr := { headBranch := "agent/issue-42", number := 7,
                url := "https://example.test/pr/7" },
        created := false } :=
  (claim_C7_pr_idempotent _ "agent/issue-42" 99 99 "u" "u").2.1 _ (by decide)

/-- C1 (counterexample): a commit containing a path outside the allow-list
IS created by `_tool_git_commit`.  With a clean index, a new untracked file
`infra/secrets.txt` outside the allow-list is invisible to
`git diff --name-only`, so both guardrail checks pass (the second is run
after `git add -A` has already staged everything and always sees an empty
diff), and the commit that is then created contains the disallowed path. -/
theorem claim_C1_counterexample :
    tool_git_commit ["source/ui-deployment", "source/ui-portal"]
      { head := [("source/ui-deployment/app.ts", "v1")],
        idx := [("source/ui-deployment/app.ts", "v1")],
        wt := [("source/ui-deployment/app.ts", "v1"),
               ("infra/secrets.txt", "oops")] } =
      .ok ({ head := [("source/ui-deployment/app.ts", "v1"),
                      ("infra/secrets.txt", "oops")],
             idx := [("source/ui-deployment/app.ts", "v1"),
                     ("infra/secrets.txt", "oops")],
             wt := [("source/ui-deployment/app.ts", "v1"),
                    ("infra/secrets.txt", "oops")] }, true) ∧
    pathAllowedB ["source/ui-deployment", "source/ui-portal"]
      "infra/secrets.txt" = false ∧
    Files.get [("source/ui-deployment/app.ts", "v1"),
               ("infra/secrets.txt", "oops")] "infra/secrets.txt" =
      some "oops" := by
  refine ⟨rfl, by decide, rfl⟩

/-- C1 (amended): the post-hoc diff guardrail catches exactly the UNSTAGED
changes to files tracked in the index — when any index-tracked file has
worktree content differing from its index content at a path outside the
allow-list, `_tool_git_commit` fails with a guardrail violation before
creating any commit.  Changes that are new untracked files, or that were
already staged (e.g. via the allow-listed `run_cmd` command `git add`),
escape both guardrail checks and can be committed (counterexample). -/
theorem claim_C1_amended (allowed : List String) (st : GitState) (p : String)
    (htracked : st.idx.get p ≠ none)
    (hchanged : st.wt.get p ≠ st.idx.get p)
    (hbad : pathAllowedB allowed p = false) :
    ∃ msg, tool_git_commit allowed st = .error msg := by
  obtain ⟨m, hm⟩ := enforce_error_of_bad allowed st.idx st.wt p
    (mem_diffNameOnly_of st.idx st.wt p htracked hchanged) hbad
  refine ⟨m, ?_⟩
  unfold tool_git_commit
  rw [hm]
  rfl

/-- C1 (witness): an unstaged disallowed modification of a tracked file makes
`_tool_git_commit` fail. -/
theorem claim_C1_witness :
    ∃ msg, tool_git_commit ["source/ui-deployment"]
      { head := [("README.md", "a")], idx := [("README.md", "a")],
        wt := [("README.md", "b")] } = .error msg :=
  claim_C1_amended ["source/ui-deployment"]
    { head := [("README.md", "a")], idx := [("README.md", "a")],
      wt := [("README.md", "b")] } "README.md"
    (by decide) (by decide) (by decide)

/-- Tree-identical index and worktree always pass the guardrail (the check
`_tool_git_commit` and finalization run right after `git add -A` is vacuous:
`git diff --name-only` compares worktree against index). -/
theorem enforce_self_ok (allowed : List String) (wt : Files) :
    enforce_allowed_paths allowed wt wt = .ok () := by
  unfold enforce_allowed_paths diffNameOnly
  simp

/-- Head branch of the PR that finalization reports: found or created, it is
the job's branch. -/
theorem ensure_pr_headBranch (prs : List PullReq) (branch : String) (n : Nat)
    (u : String) : (ensure_pr prs branch n u).pr.headBranch = branch := by
  unfold ensure_pr
  cases hfind : github_find_open_pr_for_branch prs branch with
  | none => simp
  | some pr =>
      simp only []
      have := List.find?_some hfind
      simpa using this

/-- C2 (counterexample): an agent response containing no JSON object at all
is NOT recorded in history — `_extract_first_json_object` raises, the
exception is not caught anywhere in `_agent_tool_loop` (only tool-handler
exceptions are), and the loop and the job abort. -/
theorem claim_C2_counterexample :
    agent_tool_loop (fun _ => none) (fun _ => "I could not locate a fix.")
      (fun _ _ => .ok .null) 25 =
      .error "Agent response did not contain a JSON object" ∧
    agent_step_action (fun _ => none) "I could not locate a fix." =
      .abort "Agent response did not contain a JSON object" := by
  exact ⟨rfl, rfl⟩

/-- C2 (amended): a response from which no JSON object can be extracted
aborts the tool-call loop with the extraction error (fatal for the job, no
history entry, no further step); only a successfully parsed JSON object whose
`type` is neither `final` nor `tool_call` is recorded as an
`invalid_agent_message` error entry in history, with the loop proceeding to
the next step and consuming one step of the budget. -/
theorem claim_C2_amended (parseJson : String → Option Json)
    (responses : Nat → String)
    (handlers : String → Json → Except String Json) :
    (∀ remaining step history e,
      extract_first_json_object parseJson (responses step) = .error e →
      agent_tool_loop_go parseJson responses handlers (remaining + 1) step
        history = .error e) ∧
    (∀ remaining step history obj t,
      extract_first_json_object parseJson (responses step) = .ok obj →
      jget obj "type" = some (.str t) → t ≠ "final" → t ≠ "tool_call" →
      agent_tool_loop_go parseJson responses handlers (remaining + 1) step
        history =
      agent_tool_loop_go parseJson responses handlers remaining (step + 1)
        (history ++ [.errorEntry step "invalid_agent_message"])) := by
  constructor
  · intro remaining step history e hex
    have hact : agent_step_action parseJson (responses step) = .abort e := by
      unfold agent_step_action
      rw [hex]
    simp only [agent_tool_loop_go, hact]
  · intro remaining step history obj t hex hty hf htc
    have h1 : (t == "final") = false := by
      simpa using hf
    have h2 : (t == "tool_call") = false := by
      simpa using htc
    have hact : agent_step_action parseJson (responses step) =
        .recordInvalidMessage := by
      unfold agent_step_action
      rw [hex]
      simp only [hty, h1, h2, Bool.false_eq_true, if_false]
    simp only [agent_tool_loop_go, hact]

/-- C2 (witness): a parsed object of unrecognized type is recorded and the
loop continues. -/
theorem claim_C2_witness :
    agent_tool_loop_go
      (fun s => if s == "{x}" then some (.obj [("type", .str "chat")]) else none)
      (fun _ => "{x}") (fun _ _ => .ok .null) 5 1 [] =
    agent_tool_loop_go
      (fun s => if s == "{x}" then some (.obj [("type", .str "chat")]) else none)
      (fun _ => "{x}") (fun _ _ => .ok .null) 4 2
      [.errorEntry 1 "invalid_agent_message"] :=
  (claim_C2_amended _ _ _).2 4 1 [] (.obj [("type", .str "chat")]) "chat"
    rfl rfl (by decide) (by decide)

/-- C6 (confirmed): after verification, finalization checks exactly two
signals — uncommitted working-tree modifications (`git status --porcelain`)
and a non-empty commit diff against the base branch's remote tip.  When
neither fires the job ends with the `no_changes` outcome carrying the test
summary, with no commit (state unchanged), no push (the conclusion needs no
hypothesis on push success), and no PR touched (PR list unchanged).  When
either fires, it commits exactly when there were uncommitted changes, pushes,
and ensures a PR for the branch (reusing an open one or creating one). -/
theorem claim_C6_finalize {α : Type} (allowed : List String) (branch : String)
    (st : GitState) (env : FinalizeEnv α) :
    ((filesEquiv st.head st.idx && filesEquiv st.idx st.wt) = true →
      filesEquiv st.head env.baseTip = true →
      finalize allowed branch st env = .ok (.noChanges env.tests, st, env.prs)) ∧
    (((filesEquiv st.head st.idx && filesEquiv st.idx st.wt) = false ∨
        filesEquiv st.head env.baseTip = false) →
      ((filesEquiv st.head st.idx && filesEquiv st.idx st.wt) = false →
        filesEquiv st.wt st.head = false) →
      env.pushOk = true →
      finalize allowed branch st env =
        .ok (.prDone
               (ensure_pr env.prs branch env.newPrNumber env.newPrUrl).pr.url
               (ensure_pr env.prs branch env.newPrNumber env.newPrUrl).pr.number
               env.tests
               (!(filesEquiv st.head st.idx && filesEquiv st.idx st.wt))
               (ensure_pr env.prs branch env.newPrNumber env.newPrUrl).created,
             (if (filesEquiv st.head st.idx && filesEquiv st.idx st.wt) = false
                then { head := st.wt, idx := st.wt, wt := st.wt } else st),
             (ensure_pr env.prs branch env.newPrNumber env.newPrUrl).prs) ∧
      (ensure_pr env.prs branch env.newPrNumber env.newPrUrl).pr.headBranch =
        branch) := by
  constructor
  · intro h1 h2
    simp [finalize, h1, h2]
  · intro hsig hcommit hpush
    cases hwt : (filesEquiv st.head st.idx && filesEquiv st.idx st.wt) with
    | true =>
        have hdiff : filesEquiv st.head env.baseTip = false := by
          rcases hsig with h | h
          · rw [hwt] at h; cases h
          · exact h
        refine ⟨?_, ensure_pr_headBranch _ _ _ _⟩
        simp [finalize, hwt, hdiff, hpush]
    | false =>
        have hc := hcommit hwt
        refine ⟨?_, ensure_pr_headBranch _ _ _ _⟩
        simp only [finalize, hwt, enforce_self_ok, hc, hpush, Bool.not_false,
          Bool.not_true, Bool.false_and, Bool.and_false, if_false, if_true,
          Bool.false_eq_true, ite_false, ite_true]
        rfl

/-- C6 (witness): a clean worktree with no diff against the base tip ends in
`no_changes`, and a dirty worktree ends in a commit, push, and PR. -/
theorem claim_C6_witness :
    finalize ["source/ui-deployment"] "agent/issue-9"
      { head := [("a.txt", "1")], idx := [("a.txt", "1")],
        wt := [("a.txt", "1")] }
      { baseTip := [("a.txt", "1")], pushOk := false, prs := [],
        newPrNumber := 3, newPrUrl := "https://example.test/pr/3",
        tests := (7 : Nat) } =
      .ok (.noChanges 7,
           { head := [("a.txt", "1")], idx := [("a.txt", "1")],
             wt := [("a.txt", "1")] }, []) ∧
    finalize ["source/ui-deployment"] "agent/issue-9"
      { head := [("a.txt", "1")], idx := [("a.txt", "1")],
        wt := [("a.txt", "2")] }
      { baseTip := [("a.txt", "1")], pushOk := true, prs := [],
        newPrNumber := 3, newPrUrl := "https://example.test/pr/3",
        tests := (7 : Nat) } =
      .ok (.prDone "https://example.test/pr/3" 3 7 true true,
           { head := [("a.txt", "2")], idx := [("a.txt", "2")],
             wt := [("a.txt", "2")] },
           [{ headBranch := "agent/issue-9", number := 3,
              url := "https://example.test/pr/3" }]) := by
  constructor
  · exact (claim_C6_finalize _ _ _ _).1 (by decide) (by decide)
  · have h := (claim_C6_finalize ["source/ui-deployment"] "agent/issue-9"
      { head := [("a.txt", "1")], idx := [("a.txt", "1")],
        wt := [("a.txt", "2")] }
      { baseTip := [("a.txt", "1")], pushOk := true, prs := [],
        newPrNumber := 3, newPrUrl := "https://example.test/pr/3",
        tests := (7 : Nat) }).2 (Or.inl (by decide)) (fun _ => by decide) rfl
    exact h.1

/-- Lookup after stripping: a surviving key maps to the stripped original
value; a stripped key is gone. -/
theorem jlookup_stripKvs (kvs : List (String × Json)) (k : String) :
    jlookup (stripKvs kvs) k =
      if keptKey k then (jlookup kvs k).map stripJ else none := by
  induction kvs with
  | nil =>
      by_cases h : keptKey k <;> simp [stripKvs, jlookup, h]
  | cons kv rest ih =>
      obtain ⟨k0, v0⟩ := kv
      by_cases hkept : keptKey k0
      · by_cases heq : k0 == k
        · have : k0 = k := by simpa using heq
          subst this
          simp [stripKvs, hkept, jlookup, List.find?]
        · simp only [stripKvs, hkept, if_true]
          unfold jlookup at ih ⊢
          simp only [List.find?, heq]
          exact ih
      · by_cases heq : k0 == k
        · have hk : k0 = k := by simpa using heq
          subst hk
          simp only [stripKvs, hkept, Bool.false_eq_true, if_false]
          rw [ih]
          simp [hkept, jlookup, List.find?]
        · simp only [stripKvs, hkept, Bool.false_eq_true, if_false]
          rw [ih]
          unfold jlookup
          simp [List.find?, heq]

/-- Stripping only yields a string when the input was that string. -/
theorem stripJ_eq_str (v : Json) (s : String) (h : stripJ v = .str s) :
    v = .str s := by
  cases v <;> simpa [stripJ] using h

/-- Entries of a stripped value are the stripped entries. -/
theorem getEntries_strip (j : Json) :
    getEntries (stripJ j) = stripKvs (getEntries j) := by
  cases j <;> rfl

/-- Dict `get` after stripping. -/
theorem jget_strip (j : Json) (k : String) :
    jget (stripJ j) k =
      if keptKey k then (jget j k).map stripJ else none := by
  unfold jget
  rw [getEntries_strip, jlookup_stripKvs]

mutual
/-- Stripped values contain no stripped keys anywhere. -/
theorem noBadKeys_strip (j : Json) : noBadKeys (stripJ j) = true := by
  cases j with
  | obj kvs =>
      simpa [stripJ, noBadKeys] using noBadKeysKvs_strip kvs
  | arr xs =>
      simpa [stripJ, noBadKeys] using noBadKeysArr_strip xs
  | null => rfl
  | bool b => rfl
  | num n => rfl
  | str s => rfl

/-- List part of `noBadKeys_strip`. -/
theorem noBadKeysArr_strip (xs : List Json) :
    noBadKeysArr (stripArr xs) = true := by
  cases xs with
  | nil => rfl
  | cons x rest =>
      simp [stripArr, noBadKeysArr, noBadKeys_strip x, noBadKeysArr_strip rest]

/-- Dict part of `noBadKeys_strip`. -/
theorem noBadKeysKvs_strip (kvs : List (String × Json)) :
    noBadKeysKvs (stripKvs kvs) = true := by
  cases kvs with
  | nil => rfl
  | cons kv rest =>
      obtain ⟨k, v⟩ := kv
      by_cases h : keptKey k
      · simp [stripKvs, h, noBadKeysKvs, noBadKeys_strip v,
          noBadKeysKvs_strip rest]
      · simp [stripKvs, h, noBadKeysKvs_strip rest]
end

mutual
/-- Refs surviving the stripper occurred in the original value. -/
theorem iterRefs_strip_subset (j : Json) (r : String)
    (h : r ∈ iterRefs (stripJ j)) : r ∈ iterRefs j := by
  cases j with
  | obj kvs =>
      simp only [stripJ, iterRefs] at h
      rcases List.mem_append.mp h with h1 | h2
      · rw [jlookup_stripKvs] at h1
        have hkept : keptKey "$ref" = true := by decide
        rw [hkept, if_pos rfl] at h1
        simp only [iterRefs, List.mem_append]
        cases hv : jlookup kvs "$ref" with
        | none => rw [hv] at h1; simp at h1
        | some v =>
            rw [hv] at h1
            cases v with
            | str s => exact Or.inl (by simpa [stripJ] using h1)
            | null => simp [stripJ, Option.map] at h1
            | bool b => simp [stripJ, Option.map] at h1
            | num n => simp [stripJ, Option.map] at h1
            | arr xs => simp [stripJ, Option.map] at h1
            | obj kvs2 => simp [stripJ, Option.map] at h1
      · exact List.mem_append.mpr (Or.inr (iterRefsKvs_strip_subset kvs r h2))
  | arr xs =>
      exact iterRefsArr_strip_subset xs r (by simpa [stripJ, iterRefs] using h)
  | null => simpa [stripJ, iterRefs] using h
  | bool b => simpa [stripJ, iterRefs] using h
  | num n => simpa [stripJ, iterRefs] using h
  | str s => simpa [stripJ, iterRefs] using h

/-- List part of `iterRefs_strip_subset`. -/
theorem iterRefsArr_strip_subset (xs : List Json) (r : String)
    (h : r ∈ iterRefsArr (stripArr xs)) : r ∈ iterRefsArr xs := by
  cases xs with
  | nil => simpa [stripArr, iterRefsArr] using h
  | cons x rest =>
      simp only [stripArr, iterRefsArr, List.mem_append] at h ⊢
      rcases h with h | h
      · exact Or.inl (iterRefs_strip_subset x r h)
      · exact Or.inr (iterRefsArr_strip_subset rest r h)

/-- Dict part of `iterRefs_strip_subset`. -/
theorem iterRefsKvs_strip_subset (kvs : List (String × Json)) (r : String)
    (h : r ∈ iterRefsKvs (stripKvs kvs)) : r ∈ iterRefsKvs kvs := by
  cases kvs with
  | nil => simpa [stripKvs, iterRefsKvs] using h
  | cons kv rest =>
      obtain ⟨k, v⟩ := kv
      by_cases hk : keptKey k
      · simp only [stripKvs, hk, if_true, iterRefsKvs, List.mem_append] at h ⊢
        rcases h with h | h
        · exact Or.inl (iterRefs_strip_subset v r h)
        · exact Or.inr (iterRefsKvs_strip_subset rest r h)
      · simp only [stripKvs, hk, Bool.false_eq_true, if_false] at h
        simp only [iterRefsKvs, List.mem_append]
        exact Or.inr (iterRefsKvs_strip_subset rest r h)
end

/-- A dict with a successful `get` is truthy (it is a non-empty object). -/
theorem jTruthy_of_jget_some (b : Json) (k : String) (v : Json)
    (h : jget b k = some v) : jTruthy b = true := by
  cases b with
  | obj kvs =>
      cases kvs with
      | nil => simp [jget, getEntries, jlookup] at h
      | cons kv rest => simp [jTruthy]
  | null => simp [jget, getEntries, jlookup] at h
  | bool b0 => simp [jget, getEntries, jlookup] at h
  | num n => simp [jget, getEntries, jlookup] at h
  | str s => simp [jget, getEntries, jlookup] at h
  | arr xs => simp [jget, getEntries, jlookup] at h

/-- A component found through `x or {}` was found in `x` itself. -/
theorem comp_lookup_orEmpty_some (j : Json) (tn : String × String) (obj : Json)
    (h : comp_lookup (orEmptyObj (some j)) tn = some obj) :
    comp_lookup j tn = some obj := by
  by_cases ht : jTruthy j = true
  · have he : orEmptyObj (some j) = j := by simp [orEmptyObj, ht]
    rwa [he] at h
  · have he : orEmptyObj (some j) = Json.obj [] := by simp [orEmptyObj, ht]
    rw [he] at h
    simp [comp_lookup, jget, getEntries, jlookup, orEmptyObj] at h

/-- A component found in a stripped components object comes from a component
of the unstripped object, and is its stripped form. -/
theorem comp_lookup_strip (c : Json) (tn : String × String) (obj : Json)
    (h : comp_lookup (stripJ c) tn = some obj) :
    ∃ obj0, comp_lookup c tn = some obj0 ∧ obj = stripJ obj0 := by
  unfold comp_lookup at h ⊢
  rw [jget_strip] at h
  by_cases hk1 : keptKey tn.1
  · rw [if_pos hk1] at h
    cases hb : jget c tn.1 with
    | none =>
        rw [hb] at h
        simp [orEmptyObj, jget, getEntries, jlookup] at h
    | some b =>
        rw [hb] at h
        simp only [Option.map_some'] at h
        by_cases htb : jTruthy (stripJ b) = true
        · have he : orEmptyObj (some (stripJ b)) = stripJ b := by
            simp [orEmptyObj, htb]
          rw [he] at h
          rw [jget_strip] at h
          by_cases hk2 : keptKey tn.2
          · rw [if_pos hk2] at h
            cases hv : jget b tn.2 with
            | none => rw [hv] at h; simp at h
            | some v =>
                rw [hv] at h
                simp only [Option.map_some', Option.some.injEq] at h
                refine ⟨v, ?_, h.symm⟩
                have he2 : orEmptyObj (some b) = b := by
                  simp [orEmptyObj, jTruthy_of_jget_some b tn.2 v hv]
                rw [he2]
                exact hv
          · rw [if_neg hk2] at h
            cases h
        · have he : orEmptyObj (some (stripJ b)) = Json.obj [] := by
            simp [orEmptyObj, htb]
          rw [he] at h
          simp [jget, getEntries, jlookup] at h
  · rw [if_neg hk1] at h
    simp [orEmptyObj, jget, getEntries, jlookup] at h

/-- Key membership in a stripped dict. -/
theorem mem_keys_stripKvs (kvs : List (String × Json)) (p : String) :
    p ∈ (stripKvs kvs).map Prod.fst ↔
      keptKey p = true ∧ p ∈ kvs.map Prod.fst := by
  induction kvs with
  | nil => simp [stripKvs]
  | cons kv rest ih =>
      obtain ⟨k, v⟩ := kv
      by_cases hk : keptKey k
      · by_cases hpk : p = k
        · subst hpk
          simp [stripKvs, hk]
        · simp only [stripKvs, hk, if_true, List.map_cons, List.mem_cons]
          simp only [ih]
          constructor
          · rintro (h | h)
            · exact absurd h hpk
            · exact ⟨h.1, Or.inr h.2⟩
          · rintro ⟨hkept, h | h⟩
            · exact absurd h hpk
            · exact Or.inr ⟨hkept, h⟩
      · by_cases hpk : p = k
        · subst hpk
          simp only [stripKvs, hk, Bool.false_eq_true, if_false, ih]
          simp [hk]
        · simp only [stripKvs, hk, Bool.false_eq_true, if_false, ih,
            List.map_cons, List.mem_cons]
          constructor
          · rintro ⟨hkept, h⟩
            exact ⟨hkept, Or.inr h⟩
          · rintro ⟨hkept, h | h⟩
            · exact absurd h hpk
            · exact ⟨hkept, h⟩

/-- Keys reachable after a dict assignment: the assigned key or an original
key. -/
theorem mem_keys_assocSet (m : List (String × Json)) (k p : String) (v : Json)
    (h : p ∈ (assocSet m k v).map Prod.fst) :
    p = k ∨ p ∈ m.map Prod.fst := by
  induction m with
  | nil => simpa [assocSet] using h
  | cons kv rest ih =>
      obtain ⟨k0, v0⟩ := kv
      by_cases hk : k0 == k
      · simp only [assocSet, hk, if_true, List.map_cons, List.mem_cons] at h
        rcases h with h | h
        · exact Or.inl h
        · exact Or.inr (List.mem_cons.mpr (Or.inr h))
      · simp only [assocSet, hk, Bool.false_eq_true, if_false, List.map_cons,
          List.mem_cons] at h
        rcases h with h | h
        · exact Or.inr (List.mem_cons.mpr (Or.inl h))
        · rcases ih h with h2 | h2
          · exact Or.inl h2
          · exact Or.inr (List.mem_cons.mpr (Or.inr h2))

/-- Membership is preserved by the sorting model. -/
theorem mem_of_mem_insertSorted {α : Type} (le : α → α → Bool) (x a : α)
    (l : List α) (h : a ∈ insertSorted le x l) : a = x ∨ a ∈ l := by
  induction l with
  | nil => simpa [insertSorted] using h
  | cons y ys ih =>
      by_cases hle : le x y
      · simp only [insertSorted, hle, if_true, List.mem_cons] at h
        rcases h with h | h | h
        · exact Or.inl h
        · exact Or.inr (List.mem_cons.mpr (Or.inl h))
        · exact Or.inr (List.mem_cons.mpr (Or.inr h))
      · simp only [insertSorted, hle, Bool.false_eq_true, if_false,
          List.mem_cons] at h
        rcases h with h | h
        · exact Or.inr (List.mem_cons.mpr (Or.inl h))
        · rcases ih h with h2 | h2
          · exact Or.inl h2
          · exact Or.inr (List.mem_cons.mpr (Or.inr h2))

/-- Sorted output members come from the input. -/
theorem mem_of_mem_sortByB {α : Type} (le : α → α → Bool) (a : α)
    (l : List α) (h : a ∈ sortByB le l) : a ∈ l := by
  induction l with
  | nil => simpa [sortByB] using h
  | cons x xs ih =>
      rcases mem_of_mem_insertSorted le x a (sortByB le xs) h with h2 | h2
      · exact List.mem_cons.mpr (Or.inl h2)
      · exact List.mem_cons.mpr (Or.inr (ih h2))

/-- Entries of a stripped dict come from entries of the original. -/
theorem mem_stripKvs (m : List (String × Json)) (k : String) (v' : Json)
    (h : (k, v') ∈ stripKvs m) : ∃ v, (k, v) ∈ m ∧ v' = stripJ v := by
  induction m with
  | nil => simpa [stripKvs] using h
  | cons kv rest ih =>
      obtain ⟨k0, v0⟩ := kv
      by_cases hk : keptKey k0
      · simp only [stripKvs, hk, if_true, List.mem_cons] at h
        rcases h with h | h
        · obtain ⟨h1, h2⟩ := Prod.mk.injEq .. ▸ h
          exact ⟨v0, List.mem_cons.mpr (Or.inl (by rw [h1])), h2⟩
        · obtain ⟨v, hv, he⟩ := ih h
          exact ⟨v, List.mem_cons.mpr (Or.inr hv), he⟩
      · simp only [stripKvs, hk, Bool.false_eq_true, if_false] at h
        obtain ⟨v, hv, he⟩ := ih h
        exact ⟨v, List.mem_cons.mpr (Or.inr hv), he⟩

/-- Members of a stripped components object are members of the original. -/
theorem compMembers_strip_subset (m : List (String × Json))
    (tn : String × String) (h : tn ∈ compMembers (stripJ (.obj m))) :
    tn ∈ compMembers (.obj m) := by
  simp only [compMembers, List.mem_flatMap] at h ⊢
  obtain ⟨tv, htv, hmem⟩ := h
  obtain ⟨t0, v'⟩ := tv
  have htv' : (t0, v') ∈ stripKvs m := htv
  obtain ⟨v, hv, rfl⟩ := mem_stripKvs m t0 v' htv'
  refine ⟨(t0, v), hv, ?_⟩
  simp only [List.mem_map] at hmem ⊢
  obtain ⟨nv, hnv, he⟩ := hmem
  have hnv2 : nv ∈ getEntries (stripJ v) := hnv
  rw [getEntries_strip] at hnv2
  obtain ⟨n0, w'⟩ := nv
  obtain ⟨w, hw, _⟩ := mem_stripKvs (getEntries v) n0 w' hnv2
  exact ⟨(n0, w), hw, he⟩

/-- Members introduced by a dict assignment: old members, or pairs under the
assigned key whose name is bound in the assigned value. -/
theorem compMembers_assocSet (m : List (String × Json)) (k : String)
    (v : Json) (tn : String × String)
    (h : tn ∈ compMembers (.obj (assocSet m k v))) :
    tn ∈ compMembers (.obj m) ∨
      (tn.1 = k ∧ tn.2 ∈ (getEntries v).map Prod.fst) := by
  induction m with
  | nil =>
      simp only [assocSet, compMembers, getEntries, List.flatMap_cons,
        List.flatMap_nil, List.append_nil, List.mem_map] at h
      obtain ⟨nv, hnv, he⟩ := h
      right
      refine ⟨by rw [← he], ?_⟩
      rw [← he]
      exact List.mem_map.mpr ⟨nv, hnv, rfl⟩
  | cons kv rest ih =>
      obtain ⟨k0, v0⟩ := kv
      by_cases hk : k0 == k
      · simp only [assocSet, hk, if_true, compMembers, getEntries,
          List.flatMap_cons, List.mem_append, List.mem_map] at h
        rcases h with h | h
        · obtain ⟨nv, hnv, he⟩ := h
          right
          refine ⟨by rw [← he], ?_⟩
          rw [← he]
          exact List.mem_map.mpr ⟨nv, hnv, rfl⟩
        · left
          simp only [compMembers, getEntries, List.flatMap_cons,
            List.mem_append]
          exact Or.inr h
      · simp only [assocSet, hk, Bool.false_eq_true, if_false, compMembers,
          getEntries, List.flatMap_cons, List.mem_append] at h
        rcases h with h | h
        · left
          simp only [compMembers, getEntries, List.flatMap_cons,
            List.mem_append]
          exact Or.inl h
        · rcases ih h with h2 | h2
          · left
            simp only [compMembers, getEntries, List.flatMap_cons,
              List.mem_append]
            simp only [compMembers, getEntries] at h2
            exact Or.inr h2
          · exact Or.inr h2

/-- Names bound in a bucket found by lookup are members of the dict. -/
theorem compMembers_of_lookup (m : List (String × Json)) (t x : String)
    (bucket : Json) (hb : jlookup m t = some bucket)
    (hx : x ∈ (getEntries bucket).map Prod.fst) :
    (t, x) ∈ compMembers (.obj m) := by
  unfold jlookup at hb
  cases hf : m.find? (fun kv => kv.1 == t) with
  | none => rw [hf] at hb; cases hb
  | some kv =>
      rw [hf] at hb
      simp only [Option.map_some', Option.some.injEq] at hb
      have hmem := List.mem_of_find?_eq_some hf
      have hkey : kv.1 = t := by simpa using List.find?_some hf
      simp only [compMembers, getEntries, List.mem_flatMap]
      refine ⟨kv, hmem, ?_⟩
      rw [hkey, hb]
      simp only [List.mem_map] at hx ⊢
      obtain ⟨nv, hnv, he⟩ := hx
      exact ⟨nv, hnv, by rw [he]⟩

/-- Members after `setdefault(t, {})[n] = v`: old members or the new pair. -/
theorem compMembers_insertComp (m : List (String × Json)) (t n : String)
    (v : Json) (tn : String × String)
    (h : tn ∈ compMembers (.obj (insertComp m t n v))) :
    tn ∈ compMembers (.obj m) ∨ tn = (t, n) := by
  unfold insertComp at h
  cases hb : jlookup m t with
  | some bucket =>
      rw [hb] at h
      rcases compMembers_assocSet m t _ tn h with h2 | h2
      · exact Or.inl h2
      · obtain ⟨h1, h3⟩ := h2
        rcases mem_keys_assocSet (getEntries bucket) n tn.2 v
          (by simpa [getEntries] using h3) with h4 | h4
        · right
          obtain ⟨a, b⟩ := tn
          simp only at h1 h4
          rw [h1, h4]
        · left
          obtain ⟨a, b⟩ := tn
          simp only at h1 h4
          rw [h1]
          exact compMembers_of_lookup m t b bucket hb h4
  | none =>
      rw [hb] at h
      rcases compMembers_assocSet m t _ tn h with h2 | h2
      · exact Or.inl h2
      · obtain ⟨h1, h3⟩ := h2
        right
        simp only [getEntries, List.map_cons, List.map_nil,
          List.mem_singleton] at h3
        obtain ⟨a, b⟩ := tn
        simp only at h1 h3
        rw [h1, h3]

/-- Invariant of `add_ref` folded over a ref list: if every parseable ref in
the list denotes a pair satisfying `R`, the needed set and the queue stay
within `R`. -/
theorem foldl_addRef_inv (R : String × String → Prop) :
    ∀ (refs : List String)
      (st : List (String × String) × List (String × String)),
    (∀ t ∈ st.1, R t) → (∀ t ∈ st.2, R t) →
    (∀ r ∈ refs, ∀ t', parseComponentRef r = some t' → R t') →
    (∀ t ∈ (refs.foldl addRef st).1, R t) ∧
      (∀ t ∈ (refs.foldl addRef st).2, R t) := by
  intro refs
  induction refs with
  | nil => intro st h1 h2 _; exact ⟨h1, h2⟩
  | cons r rs ih =>
      intro st h1 h2 hr
      rw [List.foldl_cons]
      refine ih (addRef st r) ?_ ?_
        (fun q hq t' hp => hr q (List.mem_cons.mpr (Or.inr hq)) t' hp)
      · intro t ht
        unfold addRef at ht
        cases hp : parseComponentRef r with
        | none => simp only [hp] at ht; exact h1 t ht
        | some tn =>
            simp only [hp] at ht
            by_cases hmem : tn ∈ st.1
            · rw [if_pos hmem] at ht
              exact h1 t ht
            · rw [if_neg hmem] at ht
              rcases List.mem_append.mp ht with h3 | h3
              · exact h1 t h3
              · have : t = tn := by simpa using h3
                subst this
                exact hr r (List.mem_cons_self r rs) t hp
      · intro t ht
        unfold addRef at ht
        cases hp : parseComponentRef r with
        | none => simp only [hp] at ht; exact h2 t ht
        | some tn =>
            simp only [hp] at ht
            by_cases hmem : tn ∈ st.1
            · rw [if_pos hmem] at ht
              exact h2 t ht
            · rw [if_neg hmem] at ht
              rcases List.mem_append.mp ht with h3 | h3
              · exact h2 t h3
              · have : t = tn := by simpa using h3
                subst this
                exact hr r (List.mem_cons_self r rs) t hp

/-- Invariant of the component walk: starting from a needed set and queue
inside `R`, with `R` closed under one dereferencing step through `comps`,
everything the walk returns is in `R` — for EVERY fuel value, so the result
is insensitive to the fuel bound. -/
theorem walk_components_inv (comps : Json) (R : String × String → Prop)
    (hstep : ∀ tn obj ref tn', R tn → comp_lookup comps tn = some obj →
      ref ∈ iterRefs obj → parseComponentRef ref = some tn' → R tn') :
    ∀ fuel needed queue, (∀ tn ∈ needed, R tn) → (∀ tn ∈ queue, R tn) →
      ∀ tn ∈ walk_components comps fuel needed queue, R tn := by
  intro fuel
  induction fuel with
  | zero =>
      intro needed queue hn _ tn htn
      exact hn tn (by simpa [walk_components] using htn)
  | succ n ih =>
      intro needed queue hn hq tn htn
      simp only [walk_components] at htn
      cases hql : queue.getLast? with
      | none =>
          rw [hql] at htn
          exact hn tn htn
      | some tn0 =>
          simp only [hql] at htn
          have htn0 : R tn0 := hq tn0 (List.mem_of_mem_getLast? hql)
          have hqrest : ∀ t ∈ queue.dropLast, R t :=
            fun t ht => hq t (List.dropLast_subset queue ht)
          cases hcl : comp_lookup comps tn0 with
          | none =>
              simp only [hcl] at htn
              exact ih needed queue.dropLast hn hqrest tn htn
          | some obj =>
              simp only [hcl] at htn
              have hrefs : ∀ r ∈ iterRefs obj, ∀ t',
                  parseComponentRef r = some t' → R t' :=
                fun r hr t' hp => hstep tn0 obj r t' htn0 hcl hr hp
              have hinv := foldl_addRef_inv R (iterRefs obj)
                (needed, queue.dropLast) hn hqrest hrefs
              exact ih _ _ hinv.1 hinv.2 tn htn

/-- Shape of `comps` in `prune_openapi`: the stripped input components behind
an `or {}` guard. -/
theorem prune_comps_eq (spec : Json) (pres : List String)
    (rxs : List (String → Bool)) :
    prune_comps spec pres rxs =
      orEmptyObj (some (stripJ (orEmptyObj (jget spec "components")))) := rfl

/-- Shape of the refs collected from the kept paths. -/
theorem prune_paths_refs_eq (spec : Json) (pres : List String)
    (rxs : List (String → Bool)) :
    prune_paths_refs spec pres rxs =
      iterRefs (stripJ (Json.obj (prune_kept_paths spec pres rxs))) := rfl

/-- Everything in `needed` after the walk is reachable from the kept paths by
transitive `$ref` traversal over the input document. -/
theorem prune_needed_reach (spec : Json) (pres : List String)
    (rxs : List (String → Bool)) :
    ∀ tn ∈ prune_needed spec pres rxs, Reach spec pres rxs tn := by
  have hstep : ∀ t0 obj ref t', Reach spec pres rxs t0 →
      comp_lookup (prune_comps spec pres rxs) t0 = some obj →
      ref ∈ iterRefs obj → parseComponentRef ref = some t' →
      Reach spec pres rxs t' := by
    intro t0 obj ref t' hR hcl href hp
    rw [prune_comps_eq] at hcl
    obtain ⟨obj0, hcl0, rfl⟩ := comp_lookup_strip _ t0 obj
      (comp_lookup_orEmpty_some _ t0 obj hcl)
    exact Reach.step t0 t' obj0 ref hR hcl0
      (iterRefs_strip_subset obj0 ref href) hp
  have hrefs0 : ∀ r ∈ prune_paths_refs spec pres rxs, ∀ t',
      parseComponentRef r = some t' → Reach spec pres rxs t' := by
    intro r hr t' hp
    rw [prune_paths_refs_eq] at hr
    exact Reach.base r t' (iterRefs_strip_subset _ r hr) hp
  have hinit := foldl_addRef_inv (Reach spec pres rxs)
    (prune_paths_refs spec pres rxs) ([], []) (by simp) (by simp) hrefs0
  intro tn htn
  exact walk_components_inv (prune_comps spec pres rxs) (Reach spec pres rxs)
    hstep _ _ _ hinit.1 hinit.2 tn htn

/-- Members of the rebuilt components section: needed pairs that are present
in the components object the rebuild reads from. -/
theorem build_new_components_members (comps : Json)
    (needed : List (String × String)) (tn : String × String)
    (h : tn ∈ compMembers (.obj (build_new_components comps needed))) :
    tn ∈ needed ∧ comp_lookup comps tn ≠ none := by
  unfold build_new_components at h
  have main : ∀ (l : List (String × String)) (acc : List (String × Json)),
      (∀ t ∈ l, t ∈ needed) →
      (∀ t, t ∈ compMembers (.obj acc) →
        t ∈ needed ∧ comp_lookup comps t ≠ none) →
      ∀ t, t ∈ compMembers (.obj (l.foldl
          (fun m tn0 =>
            let bucket := orEmptyObj (jget comps tn0.1)
            match jget bucket tn0.2 with
            | some v => insertComp m tn0.1 tn0.2 v
            | none => m) acc)) →
        t ∈ needed ∧ comp_lookup comps t ≠ none := by
    intro l
    induction l with
    | nil => intro acc _ hacc t ht; exact hacc t ht
    | cons x xs ih =>
        intro acc hl hacc t ht
        rw [List.foldl_cons] at ht
        refine ih _ (fun u hu => hl u (List.mem_cons.mpr (Or.inr hu))) ?_ t ht
        intro u hu
        cases hv : jget (orEmptyObj (jget comps x.1)) x.2 with
        | none =>
            simp only [hv] at hu
            exact hacc u hu
        | some v =>
            simp only [hv] at hu
            rcases compMembers_insertComp acc x.1 x.2 v u hu with h2 | h2
            · exact hacc u h2
            · refine h2 ▸ ⟨hl x (List.mem_cons_self x xs), ?_⟩
              intro hc
              rw [show comp_lookup comps x = some v from hv] at hc
              cases hc
  exact main (sortByB tnLe needed) []
    (fun t ht => mem_of_mem_sortByB tnLe t needed ht)
    (fun t ht => by simp [compMembers, getEntries] at ht) tn h

/-- Assigned dicts keep the no-stripped-keys invariant. -/
theorem noBadKeysKvs_assocSet (m : List (String × Json)) (k : String)
    (v : Json) (hm : noBadKeysKvs m = true) (hk : keptKey k = true)
    (hv : noBadKeys v = true) : noBadKeysKvs (assocSet m k v) = true := by
  induction m with
  | nil => simp [assocSet, noBadKeysKvs, hk, hv]
  | cons kv rest ih =>
      obtain ⟨k0, v0⟩ := kv
      simp only [noBadKeysKvs, Bool.and_eq_true] at hm
      obtain ⟨⟨h1, h2⟩, h3⟩ := hm
      by_cases hkk : k0 == k
      · simp [assocSet, hkk, noBadKeysKvs, hk, hv, h3]
      · simp [assocSet, hkk, noBadKeysKvs, h1, h2, ih h3]

/-- Entries of any stripped value have no stripped keys. -/
theorem noBadKeysKvs_getEntries_strip (j : Json) :
    noBadKeysKvs (getEntries (stripJ j)) = true := by
  rw [getEntries_strip]
  exact noBadKeysKvs_strip _

/-- Value under `paths` in the pruned document: the kept paths, stripped. -/
theorem prune_paths_value (spec : Json) (pres : List String)
    (rxs : List (String → Bool)) :
    jget (prune_openapi spec pres rxs) "paths" =
      some (Json.obj (stripKvs (prune_kept_paths spec pres rxs))) := rfl

/-- Value under `components` in the pruned document: the rebuilt referenced
components, stripped. -/
theorem prune_components_value (spec : Json) (pres : List String)
    (rxs : List (String → Bool)) :
    jget (prune_openapi spec pres rxs) "components" =
      some (stripJ (Json.obj (build_new_components (prune_comps spec pres rxs)
        (prune_needed spec pres rxs)))) := rfl

/-- C9 (counterexample): the pruned document does NOT always contain under
`paths` exactly the matching input paths.  A vendor-extension path key (legal
in an OpenAPI Paths Object) that matches an inclusion prefix is kept by the
path filter but then deleted by `_strip_big_fields`, which also runs over the
path KEYS: pruning `{"paths": {"x-ping": {"get": {}}}}` with prefix `x-`
yields an empty `paths` section although `x-ping` matches. -/
theorem claim_C9_counterexample :
    matchPathB "x-ping" ["x-"] [] = true ∧
    jget (Json.obj [("openapi", Json.str "3.0.0"),
        ("paths", Json.obj [("x-ping", Json.obj [("get", Json.obj [])])]),
        ("components", Json.obj [])]) "paths" =
      some (Json.obj [("x-ping", Json.obj [("get", Json.obj [])])]) ∧
    jget (prune_openapi
        (Json.obj [("openapi", Json.str "3.0.0"),
          ("paths", Json.obj [("x-ping", Json.obj [("get", Json.obj [])])]),
          ("components", Json.obj [])]) ["x-"] []) "paths" =
      some (Json.obj []) := by
  refine ⟨by decide, rfl, rfl⟩

/-- C9 (amended): for every OpenAPI document and inclusion rule set, the
pruned document contains under `paths` exactly those input paths that match a
prefix or regex AND whose key itself survives the field stripper (path keys
in `STRIP_KEYS` or non-exempt `x-` vendor extensions are removed); its
`components` section contains only entries reachable by transitive `$ref`
traversal starting from the kept paths, each of them present in the input's
components; and the configured verbose fields (`STRIP_KEYS` members and
non-exempt vendor extensions) are absent from every object of the output. -/
theorem claim_C9_prune (spec : Json) (pres : List String)
    (rxs : List (String → Bool)) :
    (∀ p, p ∈ (getEntries ((jget (prune_openapi spec pres rxs)
          "paths").getD .null)).map Prod.fst ↔
      (p ∈ (getEntries (orEmptyObj (jget spec "paths"))).map Prod.fst ∧
        matchPathB p pres rxs = true ∧ keptKey p = true)) ∧
    (∀ tn, tn ∈ compMembers ((jget (prune_openapi spec pres rxs)
          "components").getD .null) →
      Reach spec pres rxs tn ∧
        comp_lookup (orEmptyObj (jget spec "components")) tn ≠ none) ∧
    noBadKeys (prune_openapi spec pres rxs) = true := by
  refine ⟨?_, ?_, ?_⟩
  · intro p
    rw [prune_paths_value]
    simp only [Option.getD_some]
    have hge : getEntries (Json.obj (stripKvs (prune_kept_paths spec pres rxs)))
        = stripKvs (prune_kept_paths spec pres rxs) := rfl
    rw [hge, mem_keys_stripKvs]
    unfold prune_kept_paths
    constructor
    · rintro ⟨hkept, hmem⟩
      simp only [List.mem_map, List.mem_filter] at hmem
      obtain ⟨kv, ⟨hkv, hmatch⟩, hfst⟩ := hmem
      refine ⟨List.mem_map.mpr ⟨kv, hkv, hfst⟩, ?_, hkept⟩
      rw [← hfst]
      exact hmatch
    · rintro ⟨hmem, hmatch, hkept⟩
      refine ⟨hkept, ?_⟩
      simp only [List.mem_map, List.mem_filter]
      obtain ⟨kv, hkv, hfst⟩ := List.mem_map.mp hmem
      exact ⟨kv, ⟨hkv, by rw [hfst]; exact hmatch⟩, hfst⟩
  · intro tn htn
    rw [prune_components_value] at htn
    simp only [Option.getD_some] at htn
    have htn2 := compMembers_strip_subset _ tn htn
    obtain ⟨hneed, hpres⟩ := build_new_components_members _ _ tn htn2
    refine ⟨prune_needed_reach spec pres rxs tn hneed, ?_⟩
    intro hc
    cases hcl : comp_lookup (prune_comps spec pres rxs) tn with
    | none => exact hpres hcl
    | some obj =>
        rw [prune_comps_eq] at hcl
        obtain ⟨obj0, hcl0, _⟩ := comp_lookup_strip _ tn obj
          (comp_lookup_orEmpty_some _ tn obj hcl)
        rw [hcl0] at hc
        cases hc
  · have hsh : noBadKeys (prune_openapi spec pres rxs) =
        noBadKeysKvs (assocSet (getEntries (prune_out1 spec pres rxs))
          "components"
          (stripJ (.obj (build_new_components (prune_comps spec pres rxs)
            (prune_needed spec pres rxs))))) := rfl
    rw [hsh]
    apply noBadKeysKvs_assocSet
    · exact noBadKeysKvs_getEntries_strip _
    · decide
    · exact noBadKeys_strip _

/-- C9 (witness): on a one-path document whose kept path references
`#/components/responses/A`, the amended theorem reports the path kept and
the component both reachable and present. -/
theorem claim_C9_witness :
    ("/a" ∈ (getEntries ((jget (prune_openapi
        (Json.obj [("openapi", Json.str "3.0.0"),
          ("paths", Json.obj [("/a", Json.obj
            [("$ref", Json.str "#/components/responses/A")])]),
          ("components", Json.obj [("responses", Json.obj
            [("A", Json.obj [])])])]) ["/a"] []) "paths").getD .null)).map
        Prod.fst) ∧
    (Reach (Json.obj [("openapi", Json.str "3.0.0"),
        ("paths", Json.obj [("/a", Json.obj
          [("$ref", Json.str "#/components/responses/A")])]),
        ("components", Json.obj [("responses", Json.obj
          [("A", Json.obj [])])])]) ["/a"] [] ("responses", "A") ∧
      comp_lookup (orEmptyObj (jget (Json.obj [("openapi", Json.str "3.0.0"),
        ("paths", Json.obj [("/a", Json.obj
          [("$ref", Json.str "#/components/responses/A")])]),
        ("components", Json.obj [("responses", Json.obj
          [("A", Json.obj [])])])]) "components")) ("responses", "A") ≠
        none) := by
  constructor
  · exact ((claim_C9_prune _ ["/a"] []).1 "/a").mpr
      ⟨by decide, by decide, by decide⟩
  · exact (claim_C9_prune _ ["/a"] []).2.1 ("responses", "A") (by decide)

/-- Heap preservation is reflexive. -/
theorem PreservesFrom.rfl (h : Heap) : PreservesFrom h h :=
  ⟨Nat.le_refl _, fun _ _ => Eq.refl _⟩

/-- Heap preservation composes. -/
theorem PreservesFrom.comp {h0 h1 h2 : Heap} (p1 : PreservesFrom h0 h1)
    (p2 : PreservesFrom h1 h2) : PreservesFrom h0 h2 := by
  refine ⟨Nat.le_trans p1.1 p2.1, fun a ha => ?_⟩
  rw [p2.2 a (Nat.lt_of_lt_of_le ha p1.1), p1.2 a ha]

/-- Allocation never disturbs existing cells. -/
theorem alloc_preserves (h : Heap) (v : HNode) :
    PreservesFrom h (h.alloc v).2 := by
  refine ⟨Nat.le_succ _, fun a ha => ?_⟩
  unfold Heap.alloc Heap.read
  simp only [List.find?]
  have hne : (h.next == a) = false :=
    beq_eq_false_iff_ne.mpr (Nat.ne_of_gt ha)
  rw [hne]

/-- A store at or above the old frontier never disturbs cells below it. -/
theorem store_preserves {h0 h1 : Heap} (a : Addr) (v : HNode)
    (p : PreservesFrom h0 h1) (ha : h0.next ≤ a) :
    PreservesFrom h0 (h1.store a v) := by
  refine ⟨p.1, fun b hb => ?_⟩
  unfold Heap.store Heap.read
  simp only [List.find?]
  have hne : (a == b) = false :=
    beq_eq_false_iff_ne.mpr (Nat.ne_of_gt (Nat.lt_of_lt_of_le hb ha))
  rw [hne]
  exact p.2 b hb

mutual
/-- Building a tree only allocates. -/
theorem allocTree_preserves (h : Heap) (j : Json) :
    PreservesFrom h (allocTree h j).2 := by
  cases j with
  | null => exact alloc_preserves h _
  | bool b => exact alloc_preserves h _
  | num n => exact alloc_preserves h _
  | str s => exact alloc_preserves h _
  | arr xs =>
      exact PreservesFrom.comp (allocTreeArr_preserves h xs)
        (alloc_preserves _ _)
  | obj kvs =>
      exact PreservesFrom.comp (allocTreeKvs_preserves h kvs)
        (alloc_preserves _ _)

/-- List part of `allocTree_preserves`. -/
theorem allocTreeArr_preserves (h : Heap) (xs : List Json) :
    PreservesFrom h (allocTreeArr h xs).2 := by
  cases xs with
  | nil => exact PreservesFrom.rfl h
  | cons x rest =>
      exact PreservesFrom.comp (allocTree_preserves h x)
        (allocTreeArr_preserves (allocTree h x).2 rest)

/-- Dict part of `allocTree_preserves`. -/
theorem allocTreeKvs_preserves (h : Heap) (kvs : List (String × Json)) :
    PreservesFrom h (allocTreeKvs h kvs).2 := by
  cases kvs with
  | nil => exact PreservesFrom.rfl h
  | cons kv rest =>
      exact PreservesFrom.comp (allocTree_preserves h kv.2)
        (allocTreeKvs_preserves (allocTree h kv.2).2 rest)
end

/-- The root of a built tree sits at or above the old frontier. -/
theorem allocTree_root_ge (h : Heap) (j : Json) :
    h.next ≤ (allocTree h j).1 := by
  cases j with
  | null => exact Nat.le_refl _
  | bool b => exact Nat.le_refl _
  | num n => exact Nat.le_refl _
  | str s => exact Nat.le_refl _
  | arr xs => exact (allocTreeArr_preserves h xs).1
  | obj kvs => exact (allocTreeKvs_preserves h kvs).1

/-- `dict.get` with default only allocates. -/
theorem heapGetOrAlloc_preserves (h : Heap) (a : Addr) (k : String)
    (dflt : Json) : PreservesFrom h (heapGetOrAlloc h a k dflt).2 := by
  unfold heapGetOrAlloc
  cases heapObjGet h a k with
  | some c => exact PreservesFrom.rfl h
  | none => exact allocTree_preserves h dflt

/-- `x or default` only allocates. -/
theorem heapGetOrAllocTruthy_preserves (h : Heap) (a : Addr) (k : String)
    (dflt : Json) : PreservesFrom h (heapGetOrAllocTruthy h a k dflt).2 := by
  unfold heapGetOrAllocTruthy
  cases hg : heapObjGet h a k with
  | none =>
      try simp only [hg]
      exact allocTree_preserves h dflt
  | some c =>
      try simp only [hg]
      cases hr : h.read c with
      | none =>
          try simp only [hr]
          exact allocTree_preserves h dflt
      | some node =>
          try simp only [hr]
          by_cases ht : node.truthy
          · simp only [ht, if_true]
            exact PreservesFrom.rfl h
          · simp only [ht, Bool.false_eq_true, if_false]
            exact allocTree_preserves h dflt

/-- Every successful run of the heap-level pruning leaves all pre-existing
cells untouched: the body only allocates, except for one store whose target
is the freshly allocated stripped skeleton, an address at or above the input
heap's frontier. -/
theorem pruneH_preserves (pres : List String) (rxs : List (String → Bool))
    (fuel : Nat) (h0 : Heap) (a0 : Addr) (r : Addr) (h' : Heap)
    (hres : pruneH pres rxs fuel h0 a0 = some (r, h')) :
    PreservesFrom h0 h' := by
  unfold pruneH at hres
  split at hres
  · cases hres
  · simp only [] at hres
    split at hres
    · cases hres
    · split at hres
      · cases hres
      · cases hres
        refine store_preserves _ _ ?_ ?_
        · exact (PreservesFrom.comp (PreservesFrom.comp (PreservesFrom.comp (PreservesFrom.comp (PreservesFrom.comp (PreservesFrom.comp (PreservesFrom.comp (PreservesFrom.comp (allocTree_preserves _ _) (alloc_preserves _ _)) (heapGetOrAlloc_preserves _ _ _ _)) (heapGetOrAllocTruthy_preserves _ _ _ _)) (heapGetOrAllocTruthy_preserves _ _ _ _)) (heapGetOrAllocTruthy_preserves _ _ _ _)) (alloc_preserves _ _)) (allocTree_preserves _ _)) (allocTree_preserves _ _))
        · exact Nat.le_trans ((PreservesFrom.comp (PreservesFrom.comp (PreservesFrom.comp (PreservesFrom.comp (PreservesFrom.comp (PreservesFrom.comp (allocTree_preserves _ _) (alloc_preserves _ _)) (heapGetOrAlloc_preserves _ _ _ _)) (heapGetOrAllocTruthy_preserves _ _ _ _)) (heapGetOrAllocTruthy_preserves _ _ _ _)) (heapGetOrAllocTruthy_preserves _ _ _ _)) (alloc_preserves _ _))).1 (allocTree_root_ge _ _)

/-- Reads in a closed heap return cells below the frontier pointing below
it. -/
theorem Closed_read (h : Heap) (hc : h.Closed) (a : Addr) (v : HNode)
    (hr : h.read a = some v) :
    a < h.next ∧ ∀ b ∈ v.childAddrs, b < h.next := by
  unfold Heap.read at hr
  cases hf : h.cells.find? (fun cv => cv.1 == a) with
  | none => rw [hf] at hr; cases hr
  | some cv =>
      rw [hf] at hr
      simp only [Option.map_some', Option.some.injEq] at hr
      have hmem := List.mem_of_find?_eq_some hf
      have hkey : cv.1 = a := by simpa using List.find?_some hf
      have hcell := hc cv hmem
      exact ⟨hkey ▸ hcell.1, hr ▸ hcell.2⟩

/-- Congruence for `mapM` over the `Option` monad. -/
theorem mapM_option_congr {α β : Type} (f g : α → Option β) :
    ∀ l : List α, (∀ x ∈ l, f x = g x) → l.mapM f = l.mapM g := by
  intro l
  induction l with
  | nil => intro _; rfl
  | cons x xs ih =>
      intro h
      simp only [List.mapM_cons]
      rw [h x (List.mem_cons_self x xs),
        ih (fun y hy => h y (List.mem_cons.mpr (Or.inr hy)))]

/-- Values rooted below the old frontier read back unchanged across a
preserving heap evolution. -/
theorem readTree_preserved (h0 h1 : Heap) (hp : PreservesFrom h0 h1)
    (hc : h0.Closed) : ∀ fuel a, a < h0.next →
    readTree h1 fuel a = readTree h0 fuel a := by
  intro fuel
  induction fuel with
  | zero => intro a _; rfl
  | succ n ih =>
      intro a ha
      simp only [readTree]
      rw [hp.2 a ha]
      cases hr : h0.read a with
      | none => rfl
      | some v =>
          cases v with
          | hnull => rfl
          | hbool b => rfl
          | hnum m => rfl
          | hstr s => rfl
          | harr items =>
              have hchild := (Closed_read h0 hc a _ hr).2
              show (items.mapM (fun b => readTree h1 n b)).map Json.arr =
                (items.mapM (fun b => readTree h0 n b)).map Json.arr
              exact congrArg (Option.map Json.arr)
                (mapM_option_congr _ _ items
                  (fun b hb => ih b (hchild b (by
                    simpa [HNode.childAddrs] using hb))))
          | hobj es =>
              have hchild := (Closed_read h0 hc a _ hr).2
              show (es.mapM (fun kv => (readTree h1 n kv.2).map
                  (fun j => (kv.1, j)))).map Json.obj =
                (es.mapM (fun kv => (readTree h0 n kv.2).map
                  (fun j => (kv.1, j)))).map Json.obj
              exact congrArg (Option.map Json.obj)
                (mapM_option_congr _ _ es
                  (fun kv hkv => by
                    rw [ih kv.2 (hchild kv.2 (by
                      simp only [HNode.childAddrs]
                      exact List.mem_map.mpr ⟨kv, hkv, rfl⟩))]))

/-- C10 (confirmed): `prune_openapi` never mutates its input.  In the heap
model every successful run leaves every object allocated before the call —
in particular the whole input document graph — reading back exactly as
before: the body operates on a `deepcopy`, only constructs fresh objects,
and its single in-place store hits a dict allocated within the call. -/
theorem claim_C10_no_mutation (pres : List String)
    (rxs : List (String → Bool)) (fuel : Nat) (h0 : Heap) (a0 : Addr)
    (r : Addr) (h' : Heap) (hclosed : h0.Closed)
    (hres : pruneH pres rxs fuel h0 a0 = some (r, h')) :
    ∀ f a, a < h0.next → readTree h' f a = readTree h0 f a :=
  readTree_preserved h0 h'
    (pruneH_preserves pres rxs fuel h0 a0 r h' hres) hclosed

/-- C10 (witness): a concrete document allocated into an empty heap reads
back unchanged after pruning. -/
theorem claim_C10_witness :
    readTree ((pruneH ["/"] [] 9 (allocTree { next := 0, cells := [] }
      (Json.obj [("paths", Json.obj [("/a", Json.obj [])]),
        ("components", Json.obj [])])).2 (allocTree { next := 0, cells := [] }
      (Json.obj [("paths", Json.obj [("/a", Json.obj [])]),
        ("components", Json.obj [])])).1).getD (0, (allocTree { next := 0, cells := [] }
      (Json.obj [("paths", Json.obj [("/a", Json.obj [])]),
        ("components", Json.obj [])])).2)).2 9 (allocTree { next := 0, cells := [] }
      (Json.obj [("paths", Json.obj [("/a", Json.obj [])]),
        ("components", Json.obj [])])).1 =
      readTree (allocTree { next := 0, cells := [] }
      (Json.obj [("paths", Json.obj [("/a", Json.obj [])]),
        ("components", Json.obj [])])).2 9 (allocTree { next := 0, cells := [] }
      (Json.obj [("paths", Json.obj [("/a", Json.obj [])]),
        ("components", Json.obj [])])).1 := by
  have hres : pruneH ["/"] [] 9 (allocTree { next := 0, cells := [] }
      (Json.obj [("paths", Json.obj [("/a", Json.obj [])]),
        ("components", Json.obj [])])).2 (allocTree { next := 0, cells := [] }
      (Json.obj [("paths", Json.obj [("/a", Json.obj [])]),
        ("components", Json.obj [])])).1 =
      some ((pruneH ["/"] [] 9 (allocTree { next := 0, cells := [] }
      (Json.obj [("paths", Json.obj [("/a", Json.obj [])]),
        ("components", Json.obj [])])).2 (allocTree { next := 0, cells := [] }
      (Json.obj [("paths", Json.obj [("/a", Json.obj [])]),
        ("components", Json.obj [])])).1).getD (0, (allocTree { next := 0, cells := [] }
      (Json.obj [("paths", Json.obj [("/a", Json.obj [])]),
        ("components", Json.obj [])])).2)) := by decide
  exact claim_C10_no_mutation ["/"] [] 9 (allocTree { next := 0, cells := [] }
      (Json.obj [("paths", Json.obj [("/a", Json.obj [])]),
        ("components", Json.obj [])])).2 (allocTree { next := 0, cells := [] }
      (Json.obj [("paths", Json.obj [("/a", Json.obj [])]),
        ("components", Json.obj [])])).1
    ((pruneH ["/"] [] 9 (allocTree { next := 0, cells := [] }
      (Json.obj [("paths", Json.obj [("/a", Json.obj [])]),
        ("components", Json.obj [])])).2 (allocTree { next := 0, cells := [] }
      (Json.obj [("paths", Json.obj [("/a", Json.obj [])]),
        ("components", Json.obj [])])).1).getD (0, (allocTree { next := 0, cells := [] }
      (Json.obj [("paths", Json.obj [("/a", Json.obj [])]),
        ("components", Json.obj [])])).2)).1
    ((pruneH ["/"] [] 9 (allocTree { next := 0, cells := [] }
      (Json.obj [("paths", Json.obj [("/a", Json.obj [])]),
        ("components", Json.obj [])])).2 (allocTree { next := 0, cells := [] }
      (Json.obj [("paths", Json.obj [("/a", Json.obj [])]),
        ("components", Json.obj [])])).1).getD (0, (allocTree { next := 0, cells := [] }
      (Json.obj [("paths", Json.obj [("/a", Json.obj [])]),
        ("components", Json.obj [])])).2)).2
    (by unfold Heap.Closed; decide) hres 9 (allocTree { next := 0, cells := [] }
      (Json.obj [("paths", Json.obj [("/a", Json.obj [])]),
        ("components", Json.obj [])])).1 (by decide)
